import Mathlib

/-!
# A verification development for the `go_shell` command interpreter

Shallow embedding of `shell/parser.go`, `shell/builtin.go`, `shell/pipeline.go`,
`shell/completer.go` and `utils/trie.go`.

## Data model

A Go `string` is modelled as a `List Char` (`Str`).  The scanners of the source index
bytes; every byte they compare against (`'`, `"`, `\`, space, tab, `|`, `>`, `1`, `2`) is
ASCII and every other byte is copied through unchanged, so on UTF-8 text a byte scan and a
character scan do the same thing.

A loop `for i := 0; i < len(bytes); i++ { body }` is split in two: a step function, which is
the loop body at one index (it receives `bytes[i]`, the look-ahead `bytes[i+1]` when
`i+1 < len(bytes)`, and the local variables, and reports whether the body ran `i++`), and a
recursion over the unread suffix `bytes[i:]` that skips a byte after an `i++`.

Where the source works on runes (`range` over a string in the trie, `strings.Fields`,
`strings.TrimSpace`, `strings.ToLower`) a `Char` stands for a rune.

`completer.go` measures, slices and compares the bytes of strings that may hold any rune
(`len(s)`, `s[i]`, `s[i:]`).  There the UTF-8 bytes of a text are written out by `utf8`, a
byte `b` being the character of code `b`, and the conversion `[]rune(s)` of a byte string
back to runes is `Runes`.  The case table `unicode.ToLower` of Go's standard library is a
parameter, `lower`.

Output streams (`io.Writer`) are modelled by the text written to them.  Calls into the
operating system (`utils.FindExecutable`, `os.Pipe`, processes) are parameters or are left
out, as said at each definition.
-/

namespace GoShell

/-- A Go string. -/
abbrev Str := List Char

/-! ## `shell/parser.go` : `ParseCommand` -/

/-- The local variables of `ParseCommand`. -/
structure CommandState where
  inSingleQuotes : Bool
  inDoubleQuotes : Bool
  currentArg : Str
  args : List Str
deriving DecidableEq, Repr

/-- The statements `if currentArg.Len() > 0 { args = append(args, currentArg.String());
currentArg.Reset() }`. -/
def CommandState.flush (s : CommandState) : CommandState :=
  if s.currentArg.length > 0 then
    { s with args := s.args ++ [s.currentArg], currentArg := [] }
  else s

/-- The statement `currentArg.WriteByte(b)`. -/
def CommandState.write (s : CommandState) (b : Char) : CommandState :=
  { s with currentArg := s.currentArg ++ [b] }

/-- One pass through the loop body of `ParseCommand` (parser.go 67-151) at index `i`, with
`c = bytes[i]` and `next = bytes[i+1]` (`none` when `i+1 = len(bytes)`).  The Boolean tells
whether the body executed `i++`. -/
def parseCommandStep (c : Char) (next : Option Char) (s : CommandState) :
    CommandState × Bool :=
  if c = '\'' then
    if s.inSingleQuotes then
      if next = some '\'' then ({ s with inSingleQuotes := true }, true)
      else ({ s with inSingleQuotes := false }, false)
    else if !s.inDoubleQuotes then
      if next = some '\'' then (s.flush, true)
      else ({ s.flush with inSingleQuotes := true }, false)
    else (s.write c, false)
  else if c = '"' then
    if s.inDoubleQuotes then
      if next = some '"' then ({ s with inDoubleQuotes := true }, true)
      else ({ s with inDoubleQuotes := false }, false)
    else if !s.inSingleQuotes then
      if next = some '"' then (s.flush, true)
      else ({ s.flush with inDoubleQuotes := true }, false)
    else (s.write c, false)
  else if !s.inSingleQuotes && !s.inDoubleQuotes && (c = ' ' || c = '\t') then
    (s.flush, false)
  else if s.inDoubleQuotes && c = '\\' then
    match next with
    | some d =>
      if d = '"' then (s.write '"', true)
      else if d = '\\' then (s.write '\\', true)
      else (s.write c, false)
    | none => (s.write c, false)
  else (s.write c, false)

/-- The `for` loop of `ParseCommand` over the unread bytes; `skip` is set when the previous
pass ran `i++`, so that the byte at hand has already been consumed. -/
def parseCommandLoop : List Char → CommandState → Bool → CommandState
  | [], s, _ => s
  | c :: rest, s, skip =>
    if skip then parseCommandLoop rest s false
    else
      parseCommandLoop rest (parseCommandStep c rest.head? s).1
        (parseCommandStep c rest.head? s).2

/-- Embedding of `ParseCommand` (parser.go 59-160). -/
def ParseCommand (command : Str) : List Str :=
  (parseCommandLoop command ⟨false, false, [], []⟩ false).flush.args

/-! ## `shell/parser.go` : `ParsePipe` -/

/-- Go's `unicode.IsSpace`, the characters `strings.TrimSpace` and `strings.Fields` remove. -/
def isSpace (c : Char) : Bool :=
  c.toNat ∈ [0x09, 0x0A, 0x0B, 0x0C, 0x0D, 0x20, 0x85, 0xA0, 0x1680, 0x2000, 0x2001, 0x2002,
    0x2003, 0x2004, 0x2005, 0x2006, 0x2007, 0x2008, 0x2009, 0x200A, 0x2028, 0x2029, 0x202F,
    0x205F, 0x3000]

/-- Go's `strings.TrimSpace`. -/
def TrimSpace (s : Str) : Str :=
  ((s.dropWhile isSpace).reverse.dropWhile isSpace).reverse

/-- The local variables of `ParsePipe`. -/
structure PipeState where
  inSingleQuotes : Bool
  inDoubleQuotes : Bool
  currentPart : Str
  parts : List Str
deriving DecidableEq, Repr

/-- The statement `currentPart.WriteByte(b)`. -/
def PipeState.write (s : PipeState) (b : Char) : PipeState :=
  { s with currentPart := s.currentPart ++ [b] }

/-- The statements `if currentPart.Len() > 0 { parts = append(parts,
strings.TrimSpace(currentPart.String())); currentPart.Reset() }`. -/
def PipeState.cut (s : PipeState) : PipeState :=
  if s.currentPart.length > 0 then
    { s with parts := s.parts ++ [TrimSpace s.currentPart], currentPart := [] }
  else s

/-- One pass through the loop body of `ParsePipe` (parser.go 15-47); arguments and result as
for `parseCommandStep`. -/
def parsePipeStep (c : Char) (next : Option Char) (s : PipeState) : PipeState × Bool :=
  if c = '\'' then
    if s.inSingleQuotes then
      if next = some '\'' then ({ s with inSingleQuotes := true }, true)
      else ({ s with inSingleQuotes := false }.write c, false)
    else if !s.inDoubleQuotes then ({ s with inSingleQuotes := true }.write c, false)
    else (s.write c, false)
  else if c = '"' then
    if s.inDoubleQuotes then
      if next = some '"' then ({ s with inDoubleQuotes := true }, true)
      else ({ s with inDoubleQuotes := false }.write c, false)
    else if !s.inSingleQuotes then ({ s with inDoubleQuotes := true }.write c, false)
    else (s.write c, false)
  else if !s.inSingleQuotes && !s.inDoubleQuotes && c = '|' then (s.cut, false)
  else (s.write c, false)

/-- The `for` loop of `ParsePipe`. -/
def parsePipeLoop : List Char → PipeState → Bool → PipeState
  | [], s, _ => s
  | c :: rest, s, skip =>
    if skip then parsePipeLoop rest s false
    else parsePipeLoop rest (parsePipeStep c rest.head? s).1 (parsePipeStep c rest.head? s).2

/-- Embedding of `ParsePipe` (parser.go 7-56). -/
def ParsePipe (command : Str) : List Str :=
  (parsePipeLoop command ⟨false, false, [], []⟩ false).cut.parts

/-! ## `shell/parser.go` : `ParseRedirect` -/

/-- Go's `strings.HasPrefix`. -/
def HasPrefix (s pre : Str) : Bool := pre.isPrefixOf s

/-- Go's `strings.TrimPrefix`. -/
def TrimPrefix (s pre : Str) : Str := if HasPrefix s pre then s.drop pre.length else s

/-- The local variables of `ParseRedirect`.  `cmdSlice` is the content of the backing array
as seen through the parameter `cmdSlice` (its length never changes); `actualCmdSlice` is a
slice of the same array. -/
structure RedirectState where
  cmdSlice : List Str
  actualCmdSlice : List Str
  stdoutFile : Str
  stderrFile : Str
  stdappendFile : Str
  stderrappendFile : Str
deriving DecidableEq, Repr

/-- The value of `append(cmdSlice[:i], cmdSlice[i+1:]...)`. -/
def spliced (cmdSlice : List Str) (i : Nat) : List Str :=
  cmdSlice.take i ++ cmdSlice.drop (i + 1)

/-- The backing array of `cmdSlice` after `append(cmdSlice[:i], cmdSlice[i+1:]...)`:
`cmdSlice[:i]` has the capacity of `cmdSlice`, so `append` writes in place; the elements
after position `i` move one cell to the left and the last cell keeps its old value. -/
def arrayAfterSplice (cmdSlice : List Str) (i : Nat) : List Str :=
  spliced cmdSlice i ++ cmdSlice.drop (cmdSlice.length - 1)

/-- The assignment `actualCmdSlice = append(cmdSlice[:i], cmdSlice[i+1:]...)`. -/
def RedirectState.splice (s : RedirectState) (i : Nat) : RedirectState :=
  { s with actualCmdSlice := spliced s.cmdSlice i, cmdSlice := arrayAfterSplice s.cmdSlice i }

/-- The body of the loop of `ParseRedirect` at index `i` (parser.go 172-214). -/
def parseRedirectStep (i : Nat) (s : RedirectState) : RedirectState :=
  let arg := s.cmdSlice.getD i []
  if arg = ['>'] ∨ arg = ['1', '>'] then
    if i + 1 < s.cmdSlice.length then
      { s with stdoutFile := s.cmdSlice.getD (i + 1) [], actualCmdSlice := s.cmdSlice.take i }
    else s
  else if arg = ['2', '>'] then
    if i + 1 < s.cmdSlice.length then
      { s with stderrFile := s.cmdSlice.getD (i + 1) [], actualCmdSlice := s.cmdSlice.take i }
    else s
  else if arg = ['>', '>'] ∨ arg = ['1', '>', '>'] then
    if i + 1 < s.cmdSlice.length then
      { s with stdappendFile := s.cmdSlice.getD (i + 1) [],
               actualCmdSlice := s.cmdSlice.take i }
    else s
  else if arg = ['2', '>', '>'] then
    if i + 1 < s.cmdSlice.length then
      { s with stderrappendFile := s.cmdSlice.getD (i + 1) [],
               actualCmdSlice := s.cmdSlice.take i }
    else s
  else if HasPrefix arg ['1', '>', '>'] then
    { s with stdappendFile := TrimPrefix arg ['1', '>', '>'] }.splice i
  else if HasPrefix arg ['>', '>'] then
    { s with stdappendFile := TrimPrefix arg ['>', '>'] }.splice i
  else if HasPrefix arg ['1', '>'] then
    { s with stdoutFile := TrimPrefix arg ['1', '>'] }.splice i
  else if HasPrefix arg ['>'] then
    { s with stdoutFile := TrimPrefix arg ['>'] }.splice i
  else if HasPrefix arg ['2', '>', '>'] then
    { s with stderrappendFile := TrimPrefix arg ['2', '>', '>'] }.splice i
  else if HasPrefix arg ['2', '>'] then
    { s with stderrFile := TrimPrefix arg ['2', '>'] }.splice i
  else s

/-- The loop `for i := len(cmdSlice) - 1; i >= 0; i--`; the first argument is `i + 1`. -/
def parseRedirectLoop : Nat → RedirectState → RedirectState
  | 0, s => s
  | i + 1, s => parseRedirectLoop i (parseRedirectStep i s)

/-- Embedding of `ParseRedirect` (parser.go 163-218); the result is
`(actualCmdSlice, stdoutFile, stderrFile, stdappendFile, stderrappendFile)`. -/
def ParseRedirect (cmdSlice : List Str) : List Str × Str × Str × Str × Str :=
  let s := parseRedirectLoop cmdSlice.length ⟨cmdSlice, cmdSlice, [], [], [], []⟩
  (s.actualCmdSlice, s.stdoutFile, s.stderrFile, s.stdappendFile, s.stderrappendFile)

/-! ## `shell/builtin.go` : `runEchoBuiltin` -/

/-- How far the loop index of `runEchoBuiltin` moved inside one pass of the body: not at
all, by one `i++`, or by the loop `for i+1 < len(bytes) && bytes[i+1] == q { i++ }`. -/
inductive Skip where
  | none
  | one
  | run (q : Char)
deriving DecidableEq, Repr

/-- The local variables of `runEchoBuiltin`. -/
structure EchoState where
  inQuotes : Bool
  inDoubleQuotes : Bool
  lastWasSpace : Bool
  result : Str
deriving DecidableEq, Repr

/-- The statement `result.WriteByte(b)`. -/
def EchoState.write (s : EchoState) (b : Char) : EchoState :=
  { s with result := s.result ++ [b] }

/-- One pass through the loop body of `runEchoBuiltin` (builtin.go 45-123), with
`c = bytes[i]` and `next = bytes[i+1]` (`none` when `i+1 = len(bytes)`). -/
def runEchoStep (c : Char) (next : Option Char) (s : EchoState) : EchoState × Skip :=
  if c = '\'' then
    if s.inQuotes then ({ s with inQuotes := false, lastWasSpace := false }, .run '\'')
    else if !s.inDoubleQuotes then ({ s with inQuotes := true, lastWasSpace := false }, .none)
    else (s.write c, .none)
  else if s.inQuotes then (s.write c, .none)
  else if c = '"' then
    if s.inDoubleQuotes then
      ({ s with inDoubleQuotes := false, lastWasSpace := false }, .run '"')
    else if !s.inQuotes then ({ s with inDoubleQuotes := true, lastWasSpace := false }, .none)
    else (s.write c, .none)
  else if s.inDoubleQuotes then
    if c = '\\' then
      match next with
      | some d =>
        if d = '"' then (s.write '"', .one)
        else if d = '\\' then (s.write '\\', .one)
        else (s.write c, .one)
      | none => (s, .none)
    else (s.write c, .none)
  else if c = '\\' && next.isSome && !s.inDoubleQuotes && !s.inQuotes then
    match next with
    | some d =>
      if d = 'n' then ({ s with lastWasSpace := false }.write 'n', .one)
      else if d = 't' then ({ s with lastWasSpace := false }.write 't', .one)
      else if d = '\'' then ({ s with lastWasSpace := false }.write '\'', .one)
      else if d = '"' then ({ s with lastWasSpace := false }.write '"', .one)
      else if d = '\\' then ({ s with lastWasSpace := false }.write '\\', .one)
      else if d = ' ' then ({ s with lastWasSpace := false }.write ' ', .one)
      else ({ s with lastWasSpace := false }.write c, .none)
    | none => (s, .none)
  else if c = ' ' ∨ c = '\t' then
    if !s.lastWasSpace then ({ s with lastWasSpace := true }.write ' ', .none) else (s, .none)
  else ({ s with lastWasSpace := false }.write c, .none)

/-- The `for` loop of `runEchoBuiltin` over the unread bytes; `skip` says which of them the
previous pass has already consumed. -/
def runEchoLoop : List Char → EchoState → Skip → EchoState
  | [], s, _ => s
  | c :: rest, s, skip =>
    if skip = .one then runEchoLoop rest s .none
    else if skip = .run c then runEchoLoop rest s skip
    else runEchoLoop rest (runEchoStep c rest.head? s).1 (runEchoStep c rest.head? s).2

/-- Embedding of `runEchoBuiltin` (builtin.go 31-131): the text written to `writer`. -/
def runEchoBuiltin (realCommand : Str) : Str :=
  let echoPrefix : Str := ['e', 'c', 'h', 'o', ' ']
  if !HasPrefix realCommand echoPrefix then []
  else
    let words := realCommand.drop echoPrefix.length
    let output := (runEchoLoop words ⟨false, false, false, []⟩ .none).result
    if output.getLast? = some '\n' then output else output ++ ['\n']

/-! ## `shell/env.go`, `shell/builtin.go`, `shell/pipeline.go` : pipeline stages

`utils.FindExecutable` reads the environment and the file system; the model takes it as a
parameter `find`, with `none` for `("", false)` and `some path` for `(path, true)`. -/

/-- The variable `ShellSlice` (env.go 12). -/
def ShellSlice : List Str :=
  ["echo".toList, "type".toList, "exit".toList, "pwd".toList, "cd".toList, "history".toList]

/-- Embedding of `isBuiltinCommand` (builtin.go 11-18). -/
def isBuiltinCommand (name : Str) : Bool := ShellSlice.any (fun cmd => cmd = name)

/-- The type `pipelineCommand` (pipeline.go 13-17). -/
structure pipelineCommand where
  args : List Str
  raw : Str
  isBuiltin : Bool
deriving DecidableEq, Repr

/-- The expression `cmd.args[0]`; `HandlePipeline` builds commands with non-empty `args`. -/
def pipelineCommand.name (cmd : pipelineCommand) : Str := cmd.args.headD []

/-- Embedding of `runTypeBuiltin` (builtin.go 132-153): the text written to `writer`. -/
def runTypeBuiltin (find : Str → Option Str) (cmdSlice : List Str) : Str :=
  if cmdSlice.length ≠ 2 then []
  else
    let testedType := cmdSlice.getD 1 []
    if ShellSlice.any (fun shell => testedType = shell) then
      testedType ++ " is a shell builtin\n".toList
    else
      match find testedType with
      | some fullPath => testedType ++ " is ".toList ++ fullPath ++ "\n".toList
      | none => testedType ++ ": not found\n".toList

/-- Embedding of `runBuiltinCommand` (builtin.go 19-29): the texts written to `stdout` and
to `stderr`. -/
def runBuiltinCommand (find : Str → Option Str) (cmd : pipelineCommand) : Str × Str :=
  if cmd.name = "echo".toList then (runEchoBuiltin cmd.raw, [])
  else if cmd.name = "type".toList then (runTypeBuiltin find cmd.args, [])
  else ([], cmd.name ++ ": unsupported pipeline builtin\n".toList)

/-- The two implementations of `pipelineProcess` (pipeline.go 19-53): a `builtinProcess`,
whose `Start` runs `runBuiltinCommand` on its command, and an `externalProcess` for
`exec.Command(fullPath, args[1:]...)` with `cmd.Args` set to `argv`. -/
inductive pipelineProcess where
  | builtinProcess (cmd : pipelineCommand)
  | externalProcess (fullPath : Str) (argv : List Str)
deriving DecidableEq, Repr

/-- What `executePipeline` does with its stages: it returns at once (fewer than two
commands), or prints `msg` on the standard output and returns before starting any stage, or
starts and awaits the listed processes. -/
inductive PipelineOutcome where
  | notRun
  | aborted (msg : Str)
  | started (processes : List pipelineProcess)
deriving DecidableEq, Repr

/-- The loop `for i, cmdInfo := range commands` of `executePipeline` (pipeline.go 188-233);
`processes` holds the handles built so far. -/
def buildProcesses (find : Str → Option Str) :
    List pipelineCommand → List pipelineProcess → PipelineOutcome
  | [], processes => .started processes
  | cmdInfo :: rest, processes =>
    if cmdInfo.isBuiltin && (cmdInfo.name = "echo".toList || cmdInfo.name = "type".toList) then
      buildProcesses find rest (processes ++ [.builtinProcess cmdInfo])
    else
      match find cmdInfo.name with
      | none => .aborted (cmdInfo.name ++ ": command not found\n".toList)
      | some fullPath =>
        buildProcesses find rest
          (processes ++ [.externalProcess fullPath ([cmdInfo.name] ++ cmdInfo.args.drop 1)])

/-- Embedding of `executePipeline` (pipeline.go 167-259) up to the handles it starts; the
creation of the OS pipes is taken to succeed. -/
def executePipeline (find : Str → Option Str) (commands : List pipelineCommand) :
    PipelineOutcome :=
  if commands.length < 2 then .notRun else buildProcesses find commands []

/-! ## `utils/trie.go`

The `children` map of a node is a list of key-child pairs with one entry per key.  Go leaves
the iteration order of a map unspecified; the model iterates in order of insertion. -/

/-- The type `Trie` (trie.go 8-11). -/
inductive Trie where
  | node (isEnd : Bool) (children : List (Char × Trie))
deriving Repr

/-- The field `isEnd`. -/
def Trie.isEnd : Trie → Bool
  | .node e _ => e

/-- The field `children`. -/
def Trie.children : Trie → List (Char × Trie)
  | .node _ ch => ch

/-- Embedding of `Constructor` (trie.go 13-17). -/
def Constructor : Trie := .node false []

/-- The map read `children[ch]` (`none` for the nil pointer of an absent key). -/
def childAt (ch : Char) : List (Char × Trie) → Option Trie
  | [] => none
  | (k, t) :: rest => if k = ch then some t else childAt ch rest

/-- The map write `children[ch] = t`. -/
def setChild (ch : Char) (t : Trie) : List (Char × Trie) → List (Char × Trie)
  | [] => [(ch, t)]
  | (k, u) :: rest => if k = ch then (k, t) :: rest else (k, u) :: setChild ch t rest

/-- Embedding of `Trie.Insert` (trie.go 19-31): the trie after the call.  The child reached
by `ch` is created when absent and the rest of the word is inserted below it. -/
def Trie.Insert (t : Trie) (word : Str) : Trie :=
  match t, word with
  | .node _ children, [] => .node true children
  | .node isEnd children, ch :: word =>
    .node isEnd (setChild ch (Trie.Insert ((childAt ch children).getD Constructor) word) children)

/-- Embedding of `Trie.SearchWithPrefix` (trie.go 33-42). -/
def Trie.SearchWithPrefix (t : Trie) (pre : Str) : Option Trie :=
  match t, pre with
  | t, [] => some t
  | .node _ children, ch :: pre =>
    match childAt ch children with
    | none => none
    | some child => Trie.SearchWithPrefix child pre

/-- Embedding of `Trie.Search` (trie.go 44-47). -/
def Trie.Search (t : Trie) (word : Str) : Bool :=
  match t.SearchWithPrefix word with
  | none => false
  | some found => found.isEnd

mutual
/-- Embedding of `Trie.collectWords` (trie.go 64-84): the words appended to `completions`. -/
def collectWords : Trie → Str → List Str
  | .node isEnd children, pre => (if isEnd then [pre] else []) ++ collectChildren children pre
/-- The loop `for ch, child := range node.children` of `collectWords`. -/
def collectChildren : List (Char × Trie) → Str → List Str
  | [], _ => []
  | (ch, child) :: rest, pre => collectWords child (pre ++ [ch]) ++ collectChildren rest pre
end

/-- Embedding of `Trie.FindCompletions` (trie.go 53-61). -/
def Trie.FindCompletions (t : Trie) (pre : Str) : List Str :=
  match t.SearchWithPrefix pre with
  | none => []
  | some found => collectWords found pre

/-- The trie obtained from the empty one by inserting `words` from left to right. -/
def trieOf (words : List Str) : Trie := words.foldl (fun t w => t.Insert w) Constructor

/-! ## `shell/completer.go` -/

/-- Go's `strings.Fields`, scanning `s` with the field being read in `cur`. -/
def fieldsLoop : List Char → Str → List Str → List Str
  | [], cur, acc => if cur = [] then acc else acc ++ [cur]
  | c :: rest, cur, acc =>
    if isSpace c then fieldsLoop rest [] (if cur = [] then acc else acc ++ [cur])
    else fieldsLoop rest (cur ++ [c]) acc

/-- Go's `strings.Fields`: the maximal runs of non-space characters. -/
def Fields (s : Str) : List Str := fieldsLoop s [] []

/-- Go's `strings.ToLower` on a text `s`.  A string of ASCII bytes takes the fast path of
the library, which turns `A`..`Z` into `a`..`z` (this is what `Char.toLower` does) and
leaves the other bytes; any other string is mapped rune by rune through `unicode.ToLower`,
the case table of the standard library, given as the parameter `lower`. -/
def ToLower (lower : Char → Char) (s : Str) : Str :=
  if s.all (fun c => c.toNat < 0x80) then s.map Char.toLower else s.map lower

/-- The UTF-8 encoding of one rune (Go's `utf8.EncodeRune`); a byte `b` is given as the
character of code `b`. -/
def utf8Rune (c : Char) : Str :=
  if c.toNat < 0x80 then [c]
  else if c.toNat < 0x800 then
    [Char.ofNat (0xC0 + c.toNat / 64), Char.ofNat (0x80 + c.toNat % 64)]
  else if c.toNat < 0x10000 then
    [Char.ofNat (0xE0 + c.toNat / 4096), Char.ofNat (0x80 + c.toNat / 64 % 64),
      Char.ofNat (0x80 + c.toNat % 64)]
  else
    [Char.ofNat (0xF0 + c.toNat / 262144), Char.ofNat (0x80 + c.toNat / 4096 % 64),
      Char.ofNat (0x80 + c.toNat / 64 % 64), Char.ofNat (0x80 + c.toNat % 64)]

/-- The bytes of a Go string holding the text `s`: the UTF-8 encoding of its runes, a byte
`b` given as the character of code `b`. -/
def utf8 : Str → Str
  | [] => []
  | c :: s => utf8Rune c ++ utf8 s

/-- Go's `utf8.RuneError`, U+FFFD. -/
def RuneError : Char := Char.ofNat 0xFFFD

/-- Go's `utf8.DecodeRuneInString` on a string with first byte `s0` followed by the bytes
`rest`: the rune decoded and its width in bytes.  A byte that starts no well-formed
sequence (a stray continuation byte, an overlong or truncated sequence, a surrogate, a value
above U+10FFFF) gives `RuneError` with width 1. -/
def DecodeRune (s0 : Nat) (rest : List Nat) : Char × Nat :=
  if s0 < 0x80 then (Char.ofNat s0, 1)
  else if s0 < 0xC2 ∨ 0xF4 < s0 then (RuneError, 1)
  else
    let sz := if s0 < 0xE0 then 2 else if s0 < 0xF0 then 3 else 4
    let lo := if s0 = 0xE0 then 0xA0 else if s0 = 0xF0 then 0x90 else 0x80
    let hi := if s0 = 0xED then 0x9F else if s0 = 0xF4 then 0x8F else 0xBF
    if rest.length + 1 < sz then (RuneError, 1)
    else
      let s1 := rest.getD 0 0
      if s1 < lo ∨ hi < s1 then (RuneError, 1)
      else if sz ≤ 2 then (Char.ofNat (s0 % 32 * 64 + s1 % 64), 2)
      else
        let s2 := rest.getD 1 0
        if s2 < 0x80 ∨ 0xBF < s2 then (RuneError, 1)
        else if sz ≤ 3 then (Char.ofNat (s0 % 16 * 4096 + s1 % 64 * 64 + s2 % 64), 3)
        else
          let s3 := rest.getD 2 0
          if s3 < 0x80 ∨ 0xBF < s3 then (RuneError, 1)
          else
            (Char.ofNat (s0 % 8 * 262144 + s1 % 64 * 4096 + s2 % 64 * 64 + s3 % 64), 4)

/-- The loop of Go's conversion `[]rune(s)` over the unread bytes; the second argument is
the number of bytes still to skip, those of the rune decoded last. -/
def runesLoop : List Char → Nat → Str
  | [], _ => []
  | _ :: rest, skip + 1 => runesLoop rest skip
  | b :: rest, 0 =>
    (DecodeRune b.toNat (rest.map Char.toNat)).1
      :: runesLoop rest ((DecodeRune b.toNat (rest.map Char.toNat)).2 - 1)

/-- Go's conversion `[]rune(s)` of a string given by its bytes: the runes decoded one after
the other, `RuneError` standing for each byte that starts no well-formed sequence. -/
def Runes (s : Str) : Str := runesLoop s 0

/-- Go's comparison `a <= b` of strings, lexicographic in the byte values (for UTF-8 text
this is the order of the code points). -/
def strLE : Str → Str → Bool
  | [], _ => true
  | _ :: _, [] => false
  | a :: as, b :: bs =>
    if a.toNat < b.toNat then true
    else if b.toNat < a.toNat then false
    else strLE as bs

/-- Go's `sort.Strings`, modelled by its contract: the ascending rearrangement. -/
def sortStrings (l : List Str) : List Str := l.insertionSort (fun a b => strLE a b = true)

/-- Go's `strings.Join`. -/
def Join (elems : List Str) (sep : Str) : Str := sep.intercalate elems

/-- The loop `for i := 0; i < minLen; i++` of `longestCommonPrefix` (completer.go 116-123),
with `first = strs[0]`, `others = strs[1:]`; the first argument is `minLen - i`. -/
def lcpScan (first : Str) (others : List Str) : Nat → Nat → Str
  | 0, i => first.take i
  | remaining + 1, i =>
    if others.any (fun s => s.get? i ≠ first.get? i) then first.take i
    else lcpScan first others remaining (i + 1)

/-- Embedding of `longestCommonPrefix` (completer.go 99-127).  The source indexes the bytes
of its strings (`strs[j][i]`); `Do` applies it to the bytes of the completions. -/
def longestCommonPrefix (strs : List Str) : Str :=
  match strs with
  | [] => []
  | [s] => s
  | first :: others =>
    let minLen := (first :: others).foldl
      (fun minLen s => if s.length < minLen then s.length else minLen) first.length
    lcpScan first others minLen 0

/-- The type `CustomCompleter` (completer.go 19-23). -/
structure CustomCompleter where
  trie : Trie
  lastPrefix : Str
  tabPressed : Bool
deriving Repr

/-- The effect of one call of `Do`: the receiver after the call, the text written to
`os.Stdout`, and the two results: the rune slices `newLine` and the number `length`. -/
structure DoResult where
  completer : CustomCompleter
  output : Str
  newLine : List Str
  length : Nat
deriving Repr

/-- Embedding of `CustomCompleter.Do` (completer.go 25-96).  `line`, `lowerPrefix` and the
completions are texts; `len(..)`, the slices `completion[len(lowerPrefix):]` and
`commonPrefix[len(lowerPrefix):]` and `longestCommonPrefix` work on their bytes, and the
strings `remaining` are byte strings, returned through `[]rune(remaining)` with
`len(remaining)` counting bytes.  `lower` is the table `unicode.ToLower`. -/
def CustomCompleter.Do (c : CustomCompleter) (lower : Char → Char) (line : Str)
    (_pos : Int) : DoResult :=
  let lineStr := line
  match Fields lineStr with
  | [] => ⟨{ c with lastPrefix := [], tabPressed := false }, [], [], 0⟩
  | pfx :: _ =>
    let lowerPrefix := ToLower lower pfx
    let c1 : CustomCompleter :=
      if lowerPrefix ≠ c.lastPrefix then { c with lastPrefix := lowerPrefix, tabPressed := false }
      else c
    let completions := c1.trie.FindCompletions lowerPrefix
    if completions.length = 1 then
      let completion := completions.getD 0 []
      if completion ≠ [] ∧ completion ≠ lowerPrefix then
        let remaining := (utf8 completion).drop (utf8 lowerPrefix).length ++ [' ']
        ⟨{ c1 with tabPressed := false }, [], [Runes remaining], remaining.length⟩
      else ⟨{ c1 with tabPressed := false }, [], [], 0⟩
    else if completions.length > 1 then
      let commonPrefix := longestCommonPrefix (completions.map utf8)
      if commonPrefix.length > (utf8 lowerPrefix).length then
        let remaining := commonPrefix.drop (utf8 lowerPrefix).length
        ⟨{ c1 with tabPressed := false }, [], [Runes remaining], remaining.length⟩
      else
        let sortedCompletions := sortStrings completions
        if !c1.tabPressed then ⟨{ c1 with tabPressed := true }, ['\x07'], [], 0⟩
        else
          ⟨{ c1 with tabPressed := false },
            ['\n'] ++ Join sortedCompletions [' ', ' '] ++ ['\n'] ++ ['$', ' '] ++ lineStr,
            [], 0⟩
    else ⟨{ c1 with tabPressed := false }, ['\x07'], [], 0⟩

/-! ## Predicates used in the statements -/

/-- A character that is no quote, backslash, space or tab. -/
def isPlainChar (c : Char) : Bool :=
  c != '\'' && c != '"' && c != '\\' && c != ' ' && c != '\t'

/-- A string free of quotes, backslashes, spaces and tabs. -/
def Plain (u : Str) : Prop := ∀ c ∈ u, isPlainChar c = true

instance (u : Str) : Decidable (Plain u) := by unfold Plain; infer_instance

/-- The list `args` after `if currentArg.Len() > 0 { args = append(args, currentArg) }`. -/
def pushArg (cur : Str) (args : List Str) : List Str :=
  if cur = [] then args else args ++ [cur]

/-- The standalone redirection operators `>`, `1>`, `2>`, `>>`, `1>>`, `2>>`. -/
def standaloneOps : List Str :=
  [['>'], ['1', '>'], ['2', '>'], ['>', '>'], ['1', '>', '>'], ['2', '>', '>']]

/-- A redirection token: a standalone operator or a word starting with `>`, `1>` or `2>`. -/
def isRedirectToken (w : Str) : Bool :=
  decide (w ∈ standaloneOps) || HasPrefix w ['>'] || HasPrefix w ['1', '>']
    || HasPrefix w ['2', '>']

/-- A word list without redirection tokens. -/
def NoRedirect (ws : List Str) : Prop := ∀ w ∈ ws, isRedirectToken w = false

instance (ws : List Str) : Decidable (NoRedirect ws) := by unfold NoRedirect; infer_instance

/-- The four paths `(stdoutFile, stderrFile, stdappendFile, stderrappendFile)` when the one
redirection present has operator `op` and target `target`: `>` and `1>` truncate the
standard output, `2>` the standard error, `>>` and `1>>` append to the standard output,
`2>>` to the standard error. -/
def pathsFor (op target : Str) : Str × Str × Str × Str :=
  (if op = ['>'] ∨ op = ['1', '>'] then target else [],
   if op = ['2', '>'] then target else [],
   if op = ['>', '>'] ∨ op = ['1', '>', '>'] then target else [],
   if op = ['2', '>', '>'] then target else [])

/-- The indices `i` at which the loop of `ParsePipe` takes the branch
`!inSingleQuotes && !inDoubleQuotes && bytes[i] == '|'` (parser.go 39), that is, where it
cuts; the second argument is the index of the first unread byte. -/
def pipeCutsFrom : List Char → Nat → PipeState → Bool → List Nat
  | [], _, _, _ => []
  | c :: rest, i, s, skip =>
    if skip then pipeCutsFrom rest (i + 1) s false
    else
      (if c = '|' ∧ s.inSingleQuotes = false ∧ s.inDoubleQuotes = false then [i] else [])
        ++ pipeCutsFrom rest (i + 1) (parsePipeStep c rest.head? s).1
            (parsePipeStep c rest.head? s).2

/-- The indices at which `ParsePipe` cuts `command`. -/
def pipeCuts (command : Str) : List Nat :=
  pipeCutsFrom command 0 ⟨false, false, [], []⟩ false

/-- The indices `i` that the loop of `ParseCommand` reaches with neither `inSingleQuotes`
nor `inDoubleQuotes` set. -/
def unquotedFrom : List Char → Nat → CommandState → Bool → List Nat
  | [], _, _, _ => []
  | c :: rest, i, s, skip =>
    if skip then unquotedFrom rest (i + 1) s false
    else
      (if s.inSingleQuotes = false ∧ s.inDoubleQuotes = false then [i] else [])
        ++ unquotedFrom rest (i + 1) (parseCommandStep c rest.head? s).1
            (parseCommandStep c rest.head? s).2

/-- The indices of `command` that `ParseCommand` scans outside quotes. -/
def unquotedIndices (command : Str) : List Nat :=
  unquotedFrom command 0 ⟨false, false, [], []⟩ false

/-- How the scans of `ParseCommand` (state `sc`, skip flag `kc`) and of `ParsePipe` (state
`sp`, skip flag `kp`) stand to each other in front of the unread bytes `l`: they agree, or
they are inside a run of quotes `q` that the one skips in pairs from outside and the other
from inside. -/
def ScansAgree (l : List Char) (sc : CommandState) (kc : Bool) (sp : PipeState) (kp : Bool) :
    Prop :=
  (sc.inSingleQuotes = sp.inSingleQuotes ∧ sc.inDoubleQuotes = sp.inDoubleQuotes ∧ kc = kp)
    ∨ (l.head? = some '\'' ∧ sc.inSingleQuotes = false ∧ sc.inDoubleQuotes = false
        ∧ sp.inSingleQuotes = true ∧ sp.inDoubleQuotes = false ∧ kc = !kp)
    ∨ (l.head? = some '"' ∧ sc.inSingleQuotes = false ∧ sc.inDoubleQuotes = false
        ∧ sp.inSingleQuotes = false ∧ sp.inDoubleQuotes = true ∧ kc = !kp)

/-- The builtins other than `echo` and `type`. -/
def otherBuiltins : List Str :=
  ["exit".toList, "pwd".toList, "cd".toList, "history".toList]

/-- The test of `executePipeline` (pipeline.go 212) for a stage run inside the shell. -/
def runsAsBuiltin (cmd : pipelineCommand) : Bool :=
  cmd.isBuiltin && (cmd.name = "echo".toList || cmd.name = "type".toList)

/-- A stage for which the loop of `executePipeline` (pipeline.go 212-231) builds a process:
it passes the test for a builtin handle, or `utils.FindExecutable` finds its name. -/
def stageResolves (find : Str → Option Str) (cmd : pipelineCommand) : Bool :=
  runsAsBuiltin cmd || (find cmd.name).isSome

mutual
/-- Every `children` map of the trie has one entry per key. -/
def Trie.WF : Trie → Prop
  | .node _ children => WFChildren children
/-- The entries of a `children` map have distinct keys and well-formed children. -/
def WFChildren : List (Char × Trie) → Prop
  | [] => True
  | (ch, child) :: rest => childAt ch rest = none ∧ child.WF ∧ WFChildren rest
end

/-- A space or a tab, the separators of `ParseCommand`. -/
def isBlank (c : Char) : Bool := c = ' ' || c = '\t'

/-- The maximal runs of characters other than space and tab of a line, in order: the line is
split at every space and tab and the empty pieces are dropped. -/
def blankRuns (line : Str) : List Str :=
  (line.splitOnP isBlank).filter (fun w => decide (w ≠ []))

/-- One unit of the body of a double-quoted string: an ordinary character, or a backslash
pair, a backslash followed by the character `c`. -/
inductive DqItem where
  | ordinary (c : Char)
  | pair (c : Char)
deriving DecidableEq, Repr

/-- The bytes of a unit as they stand in the line. -/
def DqItem.raw : DqItem → Str
  | .ordinary c => [c]
  | .pair c => ['\\', c]

/-- The decoding of a unit as the specification words it: backslash-doublequote is a double
quote, backslash-backslash is one backslash, a backslash before any other character stays
with that character, an ordinary character is itself. -/
def DqItem.decode : DqItem → Str
  | .ordinary c => [c]
  | .pair c => if c = '"' then ['"'] else if c = '\\' then ['\\'] else ['\\', c]

/-- An ordinary character is neither a double quote nor a backslash. -/
def DqItem.ok : DqItem → Bool
  | .ordinary c => c != '"' && c != '\\'
  | .pair _ => true

/-- The body spelled by a sequence of units. -/
def dqRaw : List DqItem → Str
  | [] => []
  | i :: items => i.raw ++ dqRaw items

/-- The function `decode` of the specification on a body given by its units. -/
def dqDecode : List DqItem → Str
  | [] => []
  | i :: items => i.decode ++ dqDecode items

/-- The four kinds of redirection. -/
inductive RedirectKind where
  | stdoutTruncate
  | stderrTruncate
  | stdoutAppend
  | stderrAppend
deriving DecidableEq, Repr

/-- The kind of an operator: `>` and `1>` truncate the standard output, `2>` the standard
error, `>>` and `1>>` append to the standard output, `2>>` to the standard error. -/
def kindOf (op : Str) : Option RedirectKind :=
  if op = ['>'] ∨ op = ['1', '>'] then some .stdoutTruncate
  else if op = ['2', '>'] then some .stderrTruncate
  else if op = ['>', '>'] ∨ op = ['1', '>', '>'] then some .stdoutAppend
  else if op = ['2', '>', '>'] then some .stderrAppend
  else none

/-- The local variable of `ParseRedirect` that holds the path of a kind. -/
def RedirectState.path (s : RedirectState) : RedirectKind → Str
  | .stdoutTruncate => s.stdoutFile
  | .stderrTruncate => s.stderrFile
  | .stdoutAppend => s.stdappendFile
  | .stderrAppend => s.stderrappendFile

/-- The path of a kind in the result of `ParseRedirect`. -/
def pathOf (k : RedirectKind) (r : List Str × Str × Str × Str × Str) : Str :=
  match k with
  | .stdoutTruncate => r.2.1
  | .stderrTruncate => r.2.2.1
  | .stdoutAppend => r.2.2.2.1
  | .stderrAppend => r.2.2.2.2

/-- The string begins with a space or a tab. -/
def startsBlank (l : Str) : Bool :=
  match l with
  | [] => false
  | c :: _ => isBlank c

/-- The string ends with a space or a tab. -/
def endsBlank (l : Str) : Bool :=
  match l.getLast? with
  | none => false
  | some c => isBlank c

/-- The words joined by single spaces, with one space in front when `rest` begins with a
blank and one space behind when `rest` ends with a blank that follows a word. -/
def echoText (rest : Str) (words : List Str) : Str :=
  (if startsBlank rest then [' '] else []) ++ Join words [' ']
    ++ (if endsBlank rest ∧ words ≠ [] then [' '] else [])

/-- The words of `l` joined by single spaces, followed by one space when `l` ends with a
blank that follows a word. -/
def echoTail (l : Str) : Str :=
  Join (blankRuns l) [' '] ++ (if endsBlank l ∧ blankRuns l ≠ [] then [' '] else [])

/-! # Theorems

## `ParseCommand` -/

theorem isPlainChar_iff (c : Char) :
    isPlainChar c = true ↔ c ≠ '\'' ∧ c ≠ '"' ∧ c ≠ '\\' ∧ c ≠ ' ' ∧ c ≠ '\t' := by
  simp [isPlainChar, and_assoc]

/-- Outside quotes, a run of bytes that are no quote, space or tab is appended to
`currentArg`. -/
theorem parseCommandLoop_unquoted_run (u rest : List Char) (cur : Str) (args : List Str)
    (hu : ∀ c ∈ u, c ≠ '\'' ∧ c ≠ '"' ∧ c ≠ ' ' ∧ c ≠ '\t') :
    parseCommandLoop (u ++ rest) ⟨false, false, cur, args⟩ false
      = parseCommandLoop rest ⟨false, false, cur ++ u, args⟩ false := by
  induction u generalizing cur with
  | nil => simp
  | cons c u ih =>
    obtain ⟨h1, h2, h3, h4⟩ := hu c (List.mem_cons_self _ _)
    have hu2 : ∀ d ∈ u, d ≠ '\'' ∧ d ≠ '"' ∧ d ≠ ' ' ∧ d ≠ '\t' :=
      fun d hd => hu d (List.mem_cons_of_mem _ hd)
    simp [parseCommandLoop, parseCommandStep, CommandState.write, h1, h2, h3, h4, ih _ hu2]

/-- Inside single quotes, a run of bytes other than `'` is appended to `currentArg`. -/
theorem parseCommandLoop_single_run (v rest : List Char) (cur : Str) (args : List Str)
    (hv : ∀ c ∈ v, c ≠ '\'') :
    parseCommandLoop (v ++ rest) ⟨true, false, cur, args⟩ false
      = parseCommandLoop rest ⟨true, false, cur ++ v, args⟩ false := by
  induction v generalizing cur with
  | nil => simp
  | cons c v ih =>
    have h1 := hv c (List.mem_cons_self _ _)
    have hv2 : ∀ d ∈ v, d ≠ '\'' := fun d hd => hv d (List.mem_cons_of_mem _ hd)
    by_cases h2 : c = '"'
    · subst h2
      simp [parseCommandLoop, parseCommandStep, CommandState.write, ih _ hv2]
    · simp [parseCommandLoop, parseCommandStep, CommandState.write, h1, h2, ih _ hv2]


theorem plain_weaken {u : Str} (h : Plain u) :
    ∀ c ∈ u, c ≠ '\'' ∧ c ≠ '"' ∧ c ≠ ' ' ∧ c ≠ '\t' := by
  intro c hc
  have := (isPlainChar_iff c).1 (h c hc)
  tauto

theorem plain_no_single {u : Str} (h : Plain u) : ∀ c ∈ u, c ≠ '\'' :=
  fun c hc => (plain_weaken h c hc).1

/-- The head of a plain string followed by anything that does not start with `q`. -/
theorem head_plain_append_ne (v rest : List Char) (q : Char)
    (hv : ∀ c ∈ v, c ≠ q) (hr : rest.head? ≠ some q) : (v ++ rest).head? ≠ some q := by
  cases v with
  | nil => simpa using hr
  | cons c v => simpa using hv c (List.mem_cons_self _ _)


theorem pushArg_nil (args : List Str) : pushArg [] args = args := by simp [pushArg]

theorem pushArg_of_ne {cur : Str} (h : cur ≠ []) (args : List Str) :
    pushArg cur args = args ++ [cur] := by simp [pushArg, h]

theorem flush_eq (a b : Bool) (cur : Str) (args : List Str) :
    (CommandState.mk a b cur args).flush = ⟨a, b, [], pushArg cur args⟩ := by
  cases cur <;> simp [CommandState.flush, pushArg]

theorem parseCommand_eq (command : Str) (a b : Bool) (cur : Str) (args : List Str)
    (h : parseCommandLoop command ⟨false, false, [], []⟩ false = ⟨a, b, cur, args⟩) :
    ParseCommand command = pushArg cur args := by
  simp [ParseCommand, h, flush_eq]

theorem parseCommandLoop_open_single (rest : List Char) (cur : Str) (args : List Str)
    (h : rest.head? ≠ some '\'') :
    parseCommandLoop ('\'' :: rest) ⟨false, false, cur, args⟩ false
      = parseCommandLoop rest ⟨true, false, [], pushArg cur args⟩ false := by
  rw [parseCommandLoop]
  simp [parseCommandStep, h, flush_eq]

theorem parseCommandLoop_close_single (rest : List Char) (cur : Str) (args : List Str)
    (h : rest.head? ≠ some '\'') :
    parseCommandLoop ('\'' :: rest) ⟨true, false, cur, args⟩ false
      = parseCommandLoop rest ⟨false, false, cur, args⟩ false := by
  rw [parseCommandLoop]
  simp [parseCommandStep, h]

/-- C1 (amended): `ParseCommand` starts a new word where a single quote opens after
accumulated content.  For all strings `u`, `v`, `w` without quote, backslash, space or tab,
`u` and `v` non-empty, `ParseCommand(u ++ "'" ++ v ++ "'" ++ w)` is the two-element list
`[u, v ++ w]`: the unquoted text before the quote is a word of its own, and the quoted text
joins only what follows the closing quote. -/
theorem parseCommand_quote_starts_word (u v w : Str) (hu : Plain u) (hv : Plain v) (hw : Plain w)
    (hu0 : u ≠ []) (hv0 : v ≠ []) :
    ParseCommand (u ++ ['\''] ++ v ++ ['\''] ++ w) = [u, v ++ w] := by
  have e : u ++ ['\''] ++ v ++ ['\''] ++ w = u ++ ('\'' :: (v ++ ('\'' :: (w ++ [])))) := by
    simp
  have h1 : (v ++ ('\'' :: (w ++ []))).head? ≠ some '\'' := by
    cases v with
    | nil => exact absurd rfl hv0
    | cons c v => simpa using plain_no_single hv c (List.mem_cons_self _ _)
  have h2 : (w ++ []).head? ≠ some '\'' :=
    head_plain_append_ne w [] _ (plain_no_single hw) (by simp)
  have hvl : v ++ w ≠ [] := by simp [hv0]
  rw [e, parseCommand_eq _ false false (v ++ w) [u], pushArg_of_ne hvl]
  · rfl
  rw [parseCommandLoop_unquoted_run u _ _ _ (plain_weaken hu),
    parseCommandLoop_open_single _ _ _ h1,
    parseCommandLoop_single_run v _ _ _ (plain_no_single hv),
    parseCommandLoop_close_single _ _ _ h2,
    parseCommandLoop_unquoted_run w _ _ _ (plain_weaken hw)]
  simp [parseCommandLoop, pushArg_of_ne hu0]

/-- C1 (amended), witness: `foo'bar'` is tokenized into the two words `foo` and `bar`. -/
theorem parseCommand_quote_starts_word_witness :
    ParseCommand ("foo".toList ++ ['\''] ++ "bar".toList ++ ['\''] ++ [])
      = ["foo".toList, "bar".toList ++ []] :=
  parseCommand_quote_starts_word "foo".toList "bar".toList [] (by decide) (by decide) (by decide)
    (by decide) (by decide)


/-- Inside double quotes, a run of bytes other than `"` and `\` is appended to
`currentArg`. -/
theorem parseCommandLoop_double_run (v rest : List Char) (cur : Str) (args : List Str)
    (hv : ∀ c ∈ v, c ≠ '"' ∧ c ≠ '\\') :
    parseCommandLoop (v ++ rest) ⟨false, true, cur, args⟩ false
      = parseCommandLoop rest ⟨false, true, cur ++ v, args⟩ false := by
  induction v generalizing cur with
  | nil => simp
  | cons c v ih =>
    obtain ⟨h1, h2⟩ := hv c (List.mem_cons_self _ _)
    have hv2 : ∀ d ∈ v, d ≠ '"' ∧ d ≠ '\\' := fun d hd => hv d (List.mem_cons_of_mem _ hd)
    by_cases h3 : c = '\''
    · subst h3
      simp [parseCommandLoop, parseCommandStep, CommandState.write, ih _ hv2]
    · simp [parseCommandLoop, parseCommandStep, CommandState.write, h1, h2, h3, ih _ hv2]

theorem parseCommandLoop_open_double (rest : List Char) (cur : Str) (args : List Str)
    (h : rest.head? ≠ some '"') :
    parseCommandLoop ('"' :: rest) ⟨false, false, cur, args⟩ false
      = parseCommandLoop rest ⟨false, true, [], pushArg cur args⟩ false := by
  rw [parseCommandLoop]
  simp [parseCommandStep, h, flush_eq]

theorem parseCommandLoop_blank (c : Char) (rest : List Char) (cur : Str) (args : List Str)
    (h : c = ' ' ∨ c = '\t') :
    parseCommandLoop (c :: rest) ⟨false, false, cur, args⟩ false
      = parseCommandLoop rest ⟨false, false, [], pushArg cur args⟩ false := by
  rw [parseCommandLoop]
  rcases h with rfl | rfl <;> simp [parseCommandStep, flush_eq]

theorem plain_no_double {u : Str} (h : Plain u) : ∀ c ∈ u, c ≠ '"' ∧ c ≠ '\\' := by
  intro c hc
  have := (isPlainChar_iff c).1 (h c hc)
  tauto

/-- What `ParseCommand` does with a backslash outside any quoting: it copies it like any
other character and escapes nothing.  For all `u`, `v` without quote, backslash, space or
tab and every character `c`: when `c` is no space, tab or quote, `ParseCommand(u ++ "\" ++ c
++ v)` is the single word `u ++ "\" ++ c ++ v`, backslash kept; when `c` is a space, a tab
or a quote, the result is the word `u ++ "\"` followed by the word `v` if `v` is
non-empty. -/
theorem parseCommand_backslash_literal (u v : Str) (c : Char) (hu : Plain u) (hv : Plain v) :
    ParseCommand (u ++ ['\\'] ++ [c] ++ v) =
      if c = ' ' ∨ c = '\t' ∨ c = '\'' ∨ c = '"' then pushArg v [u ++ ['\\']]
      else [u ++ ['\\'] ++ [c] ++ v] := by
  have hub : ∀ d ∈ u ++ ['\\'], d ≠ '\'' ∧ d ≠ '"' ∧ d ≠ ' ' ∧ d ≠ '\t' := by
    intro d hd
    rcases List.mem_append.1 hd with h | h
    · exact plain_weaken hu d h
    · simp only [List.mem_singleton] at h
      subst h
      decide
  have hne : u ++ ['\\'] ≠ [] := by simp
  have e : u ++ ['\\'] ++ [c] ++ v = (u ++ ['\\']) ++ (c :: (v ++ [])) := by simp
  split
  next hc =>
    rw [e, parseCommand_eq _ (c = '\'') (c = '"') v [u ++ ['\\']]]
    rw [parseCommandLoop_unquoted_run _ _ _ _ hub, List.nil_append]
    rcases hc with h | h | h | h
    · rw [parseCommandLoop_blank c _ _ _ (Or.inl h),
        parseCommandLoop_unquoted_run v _ _ _ (plain_weaken hv)]
      subst h
      simp [parseCommandLoop, pushArg_of_ne hne]
    · rw [parseCommandLoop_blank c _ _ _ (Or.inr h),
        parseCommandLoop_unquoted_run v _ _ _ (plain_weaken hv)]
      subst h
      simp [parseCommandLoop, pushArg_of_ne hne]
    · subst h
      rw [parseCommandLoop_open_single _ _ _
          (head_plain_append_ne v [] _ (plain_no_single hv) (by simp)),
        parseCommandLoop_single_run v _ _ _ (plain_no_single hv)]
      simp [parseCommandLoop, pushArg_of_ne hne]
    · subst h
      rw [parseCommandLoop_open_double _ _ _
          (head_plain_append_ne v [] _ (fun d hd => (plain_no_double hv d hd).1) (by simp)),
        parseCommandLoop_double_run v _ _ _ (plain_no_double hv)]
      simp [parseCommandLoop, pushArg_of_ne hne]
  next hc =>
    have hall : ∀ d ∈ u ++ ['\\'] ++ [c] ++ v, d ≠ '\'' ∧ d ≠ '"' ∧ d ≠ ' ' ∧ d ≠ '\t' := by
      intro d hd
      rcases List.mem_append.1 hd with h | h
      · rcases List.mem_append.1 h with h | h
        · exact hub d h
        · simp only [List.mem_singleton] at h
          subst h
          tauto
      · exact plain_weaken hv d h
    have hne2 : u ++ ['\\'] ++ [c] ++ v ≠ [] := by simp
    have e2 : u ++ ['\\'] ++ [c] ++ v = (u ++ ['\\'] ++ [c] ++ v) ++ [] := by simp
    rw [parseCommand_eq _ false false (u ++ ['\\'] ++ [c] ++ v) [], pushArg_of_ne hne2]
    · rfl
    · rw [e2, parseCommandLoop_unquoted_run _ _ _ _ hall]
      simp [parseCommandLoop]

/-- The line `a\ b` yields the two words `a\` and `b`. -/
theorem parseCommand_backslash_literal_witness :
    ParseCommand ("a".toList ++ ['\\'] ++ [' '] ++ "b".toList) =
      if ' ' = ' ' ∨ ' ' = '\t' ∨ ' ' = '\'' ∨ ' ' = '"' then
        pushArg "b".toList ["a".toList ++ ['\\']]
      else ["a".toList ++ ['\\'] ++ [' '] ++ "b".toList] :=
  parseCommand_backslash_literal "a".toList "b".toList ' ' (by decide) (by decide)


/-- C1, counterexample: for `u = a`, `v = b`, `w = c` the result of `ParseCommand` on
`a'b'c` is not the one-element list `[abc]`. -/
theorem parseCommand_quote_concat_counterexample :
    Plain "a".toList ∧ Plain "b".toList ∧ Plain "c".toList ∧
    ParseCommand ("a".toList ++ ['\''] ++ "b".toList ++ ['\''] ++ "c".toList)
      ≠ ["a".toList ++ "b".toList ++ "c".toList] := by decide

/-- C2, the failing line `a\ b` (`u = a`, `c` a space, `v = b`): `ParseCommand` returns the
two words `a\` and `b`, not the single word `a b`.  On the line `echo a\ b` the scanner of
`runEchoBuiltin` takes the backslash as escaping the space and writes `a b`, while
`ParseCommand` splits the same line into `echo`, `a\`, `b`. -/
theorem parseCommand_backslash_space_splits :
    Plain "a".toList ∧ Plain "b".toList
      ∧ ParseCommand ("a".toList ++ ['\\'] ++ [' '] ++ "b".toList)
          = ["a".toList ++ ['\\'], "b".toList]
      ∧ ParseCommand ("a".toList ++ ['\\'] ++ [' '] ++ "b".toList)
          ≠ ["a".toList ++ [' '] ++ "b".toList]
      ∧ runEchoBuiltin "echo a\\ b".toList = "a b\n".toList
      ∧ ParseCommand "echo a\\ b".toList = ["echo".toList, "a\\".toList, "b".toList] := by
  decide

/-! ## `ParseRedirect` -/

theorem hasPrefix_iff (s pre : Str) : HasPrefix s pre = true ↔ pre <+: s := by
  simp [HasPrefix]

theorem hasPrefix_false_of_append {s p : Str} (q : Str) (h : HasPrefix s p = false) :
    HasPrefix s (p ++ q) = false := by
  rw [Bool.eq_false_iff] at h ⊢
  intro hpq
  exact h ((hasPrefix_iff _ _).2 ((List.prefix_append p q).trans ((hasPrefix_iff _ _).1 hpq)))

theorem ne_of_hasPrefix_false {s p : Str} (q : Str) (h : HasPrefix s p = false) :
    s ≠ p ++ q := by
  rintro rfl
  rw [Bool.eq_false_iff] at h
  exact h ((hasPrefix_iff _ _).2 (List.prefix_append p q))

theorem not_token_cases {w : Str} (h : isRedirectToken w = false) :
    w ≠ ['>'] ∧ w ≠ ['1', '>'] ∧ w ≠ ['2', '>'] ∧ w ≠ ['>', '>'] ∧ w ≠ ['1', '>', '>']
      ∧ w ≠ ['2', '>', '>'] ∧ HasPrefix w ['1', '>', '>'] = false
      ∧ HasPrefix w ['>', '>'] = false ∧ HasPrefix w ['1', '>'] = false
      ∧ HasPrefix w ['>'] = false ∧ HasPrefix w ['2', '>', '>'] = false
      ∧ HasPrefix w ['2', '>'] = false := by
  simp only [isRedirectToken, Bool.or_eq_false_iff] at h
  obtain ⟨⟨⟨-, h7⟩, h8⟩, h9⟩ := h
  exact ⟨ne_of_hasPrefix_false [] h7, ne_of_hasPrefix_false [] h8, ne_of_hasPrefix_false [] h9,
    ne_of_hasPrefix_false ['>'] h7, ne_of_hasPrefix_false ['>'] h8,
    ne_of_hasPrefix_false ['>'] h9, hasPrefix_false_of_append ['>'] h8,
    hasPrefix_false_of_append ['>'] h7, h8, h7, hasPrefix_false_of_append ['>'] h9, h9⟩

/-- The loop body of `ParseRedirect` leaves the state alone at a word that is no
redirection token. -/
theorem parseRedirectStep_of_not_token (i : Nat) (s : RedirectState)
    (h : isRedirectToken (s.cmdSlice.getD i []) = false) : parseRedirectStep i s = s := by
  obtain ⟨h1, h2, h3, h4, h5, h6, h7, h8, h9, h10, h11, h12⟩ := not_token_cases h
  simp only [parseRedirectStep, h1, h2, h3, h4, h5, h6, h7, h8, h9, h10, h11, h12]
  simp

/-- The loop of `ParseRedirect` leaves the state alone over a stretch of words that are no
redirection tokens. -/
theorem parseRedirectLoop_skip (m k : Nat) (s : RedirectState)
    (h : ∀ j, m ≤ j → j < m + k → isRedirectToken (s.cmdSlice.getD j []) = false) :
    parseRedirectLoop (m + k) s = parseRedirectLoop m s := by
  induction k with
  | zero => rfl
  | succ k ih =>
    have hk := h (m + k) (Nat.le_add_right _ _) (by omega)
    show parseRedirectLoop (m + k) (parseRedirectStep (m + k) s) = _
    rw [parseRedirectStep_of_not_token _ _ hk]
    exact ih (fun j h1 h2 => h j h1 (by omega))

theorem parseRedirectLoop_skip_all (n : Nat) (s : RedirectState)
    (h : ∀ j, j < n → isRedirectToken (s.cmdSlice.getD j []) = false) :
    parseRedirectLoop n s = s := by
  have := parseRedirectLoop_skip 0 n s (fun j _ hj => h j (by omega))
  simpa [parseRedirectLoop] using this


theorem getD_mem {l : List Str} {j : Nat} (hj : j < l.length) : l.getD j [] ∈ l := by
  rw [List.getD_eq_getElem _ _ hj]
  exact List.getElem_mem _

theorem not_token_getD_left {a : List Str} (b : List Str) (ha : NoRedirect a) {j : Nat}
    (hj : j < a.length) : isRedirectToken ((a ++ b).getD j []) = false := by
  rw [List.getD_append _ _ _ _ hj]
  exact ha _ (getD_mem hj)

theorem not_token_getD_right (a : List Str) {b : List Str} (hb : NoRedirect b) {j : Nat}
    (h1 : a.length ≤ j) (h2 : j < a.length + b.length) :
    isRedirectToken ((a ++ b).getD j []) = false := by
  rw [List.getD_append_right _ _ _ _ h1]
  exact hb _ (getD_mem (by omega))

theorem noRedirect_cons {t : Str} {rest : List Str} (ht : isRedirectToken t = false)
    (hr : NoRedirect rest) : NoRedirect (t :: rest) := by
  intro w hw
  rcases List.mem_cons.1 hw with rfl | h
  · exact ht
  · exact hr w h

/-- C9: standalone redirection.  For all word lists `args`, `rest` and every word `t`, none
of them holding a standalone operator or a word starting with `>`, `1>` or `2>`, and every
standalone operator `op`, `ParseRedirect(args ++ [op, t] ++ rest)` returns `args` as the
argument list, `t` as the path of the kind of `op` and the empty string for the other three
paths. -/
theorem parseRedirect_standalone (args rest : List Str) (t op : Str)
    (hargs : NoRedirect args) (hrest : NoRedirect rest) (ht : isRedirectToken t = false)
    (hop : op ∈ standaloneOps) :
    ParseRedirect (args ++ [op, t] ++ rest) = (args, pathsFor op t) := by
  have e : args ++ [op, t] ++ rest = (args ++ [op]) ++ (t :: rest) := by simp
  have elen : (args ++ [op, t] ++ rest).length = (args.length + 1) + (rest.length + 1) := by
    simp; omega
  have htr := noRedirect_cons ht hrest
  unfold ParseRedirect
  simp only []
  rw [elen, parseRedirectLoop_skip]
  · show (fun s : RedirectState => (s.actualCmdSlice, s.stdoutFile, s.stderrFile,
      s.stdappendFile, s.stderrappendFile))
      (parseRedirectLoop args.length (parseRedirectStep args.length _)) = _
    have harg : (args ++ [op, t] ++ rest).getD args.length [] = op := by
      rw [List.append_assoc, List.getD_append_right _ _ _ _ (le_refl _)]
      simp
    have hnext : (args ++ [op, t] ++ rest).getD (args.length + 1) [] = t := by
      rw [List.append_assoc, List.getD_append_right _ _ _ _ (Nat.le_add_right _ _)]
      simp
    have htake : (args ++ [op, t] ++ rest).take args.length = args := by
      rw [List.append_assoc, List.take_left]
    have hlt : args.length + 1 < (args ++ [op, t] ++ rest).length := by rw [elen]; omega
    have hlow : ∀ (s : RedirectState), s.cmdSlice = args ++ [op, t] ++ rest →
        parseRedirectLoop args.length s = s := by
      intro s hs
      apply parseRedirectLoop_skip_all
      intro j hj
      rw [hs, List.append_assoc]
      exact not_token_getD_left _ hargs hj
    simp only [standaloneOps, List.mem_cons, List.mem_singleton, List.not_mem_nil,
      or_false] at hop
    rcases hop with rfl | rfl | rfl | rfl | rfl | rfl <;>
      · simp only [parseRedirectStep, harg, hnext, htake, hlt]
        rw [hlow _ rfl]
        simp [pathsFor]
  · intro j h1 h2
    rw [e]
    exact not_token_getD_right _ htr (by simpa using h1) (by simp; omega)


theorem spliced_middle (pre post : List Str) (g : Str) :
    spliced (pre ++ g :: post) pre.length = pre ++ post := by
  simp [spliced, List.take_append_eq_append_take, List.drop_append_eq_append_drop]

/-- C10: glued redirection.  For all word lists `pre`, `post` without redirection tokens,
every operator `op` among `1>>`, `>>`, `1>`, `>`, `2>>`, `2>` and every non-empty path `p`
that does not start with `>`, `ParseRedirect(pre ++ [op ++ p] ++ post)` returns
`pre ++ post` as the argument list, `p` as the path of the kind of `op` and the empty string
for the other three paths. -/
theorem parseRedirect_glued (pre post : List Str) (op p : Str)
    (hpre : NoRedirect pre) (hpost : NoRedirect post) (hp : p ≠ [])
    (hp2 : p.head? ≠ some '>') (hop : op ∈ standaloneOps) :
    ParseRedirect (pre ++ [op ++ p] ++ post) = (pre ++ post, pathsFor op p) := by
  have elen : (pre ++ [op ++ p] ++ post).length = (pre.length + 1) + post.length := by
    simp; omega
  have e : pre ++ [op ++ p] ++ post = pre ++ (op ++ p) :: post := by simp
  unfold ParseRedirect
  simp only []
  rw [elen, parseRedirectLoop_skip]
  · show (fun s : RedirectState => (s.actualCmdSlice, s.stdoutFile, s.stderrFile,
      s.stdappendFile, s.stderrappendFile))
      (parseRedirectLoop pre.length (parseRedirectStep pre.length _)) = _
    have harg : (pre ++ [op ++ p] ++ post).getD pre.length [] = op ++ p := by
      rw [List.append_assoc, List.getD_append_right _ _ _ _ (le_refl _)]
      simp
    have hlow : ∀ (s : RedirectState),
        s.cmdSlice = arrayAfterSplice (pre ++ [op ++ p] ++ post) pre.length →
        parseRedirectLoop pre.length s = s := by
      intro s hs
      apply parseRedirectLoop_skip_all
      intro j hj
      rw [hs, e, arrayAfterSplice, spliced_middle, List.append_assoc]
      exact not_token_getD_left _ hpre hj
    obtain ⟨c, r, rfl⟩ : ∃ c r, p = c :: r := by
      cases p with
      | nil => exact absurd rfl hp
      | cons c r => exact ⟨c, r, rfl⟩
    have hc : c ≠ '>' := by simpa using hp2
    have hc2 : ('>' == c) = false := by simpa using fun h => hc h.symm
    simp only [standaloneOps, List.mem_cons, List.mem_singleton, List.not_mem_nil,
      or_false] at hop
    rcases hop with rfl | rfl | rfl | rfl | rfl | rfl <;>
      · simp only [parseRedirectStep, harg]
        simp only [HasPrefix, TrimPrefix, List.isPrefixOf, List.cons_append, List.nil_append,
          List.cons.injEq, hc, hc2, reduceCtorEq, and_false, false_and, or_self, ↓reduceIte,
          Bool.and_false, Bool.false_and, Bool.and_true, Bool.true_and, Bool.false_eq_true,
          Char.reduceBEq, Char.reduceEq, beq_self_eq_true, RedirectState.splice, List.drop,
          List.length_cons, List.length_nil, and_true, true_and]
        rw [hlow _ rfl]
        simp [pathsFor, spliced_middle]
  · intro j h1 h2
    exact not_token_getD_right _ hpost (by simpa using h1) (by simp; omega)


theorem getD_of_take_eq {l l2 : List Str} {n j : Nat} (h : l.take n = l2.take n)
    (hj : j < n) : l.getD j [] = l2.getD j [] := by
  have h1 : (l.take n)[j]? = l[j]? := by rw [List.getElem?_take]; simp [hj]
  have h2 : (l2.take n)[j]? = l2[j]? := by rw [List.getElem?_take]; simp [hj]
  simp only [List.getD_eq_getElem?_getD, ← h1, ← h2, h]

theorem arrayAfterSplice_length (l : List Str) (i : Nat) (hi : i < l.length) :
    (arrayAfterSplice l i).length = l.length := by
  simp only [arrayAfterSplice, spliced, List.length_append, List.length_take, List.length_drop]
  omega

theorem arrayAfterSplice_take (l : List Str) (i : Nat) (hi : i < l.length) :
    (arrayAfterSplice l i).take i = l.take i := by
  simp only [arrayAfterSplice, spliced, List.append_assoc]
  rw [List.take_append_eq_append_take]
  have h0 : i - (List.take i l).length = 0 := by simp [List.length_take]; omega
  rw [h0, List.take_zero, List.append_nil, List.take_take, Nat.min_self]

theorem parseRedirectStep_cmdSlice (i : Nat) (s : RedirectState) :
    (parseRedirectStep i s).cmdSlice = s.cmdSlice
      ∨ (parseRedirectStep i s).cmdSlice = arrayAfterSplice s.cmdSlice i := by
  unfold parseRedirectStep
  simp only []
  repeat' split
  all_goals first
    | exact Or.inl rfl
    | exact Or.inr rfl

/-- The loop body at index `i` leaves the cells below `i` and the length of the array
unchanged. -/
theorem parseRedirectStep_frame (i : Nat) (s : RedirectState) (hi : i < s.cmdSlice.length) :
    (parseRedirectStep i s).cmdSlice.take i = s.cmdSlice.take i
      ∧ (parseRedirectStep i s).cmdSlice.length = s.cmdSlice.length := by
  rcases parseRedirectStep_cmdSlice i s with h | h <;> rw [h]
  · exact ⟨rfl, rfl⟩
  · exact ⟨arrayAfterSplice_take _ _ hi, arrayAfterSplice_length _ _ hi⟩

/-- Running the loop from index `m + k - 1` down to `m` leaves the cells below `m`
unchanged. -/
theorem parseRedirectLoop_upper (m k : Nat) (s : RedirectState)
    (hlen : m + k ≤ s.cmdSlice.length) :
    ∃ s2, parseRedirectLoop (m + k) s = parseRedirectLoop m s2
      ∧ s2.cmdSlice.take m = s.cmdSlice.take m
      ∧ s2.cmdSlice.length = s.cmdSlice.length := by
  induction k generalizing s with
  | zero => exact ⟨s, rfl, rfl, rfl⟩
  | succ k ih =>
    obtain ⟨h1, h2⟩ := parseRedirectStep_frame (m + k) s (by omega)
    obtain ⟨s2, e1, e2, e3⟩ := ih (parseRedirectStep (m + k) s) (by omega)
    refine ⟨s2, e1, ?_, e3.trans h2⟩
    rw [e2]
    have := congrArg (List.take m) h1
    simpa [List.take_take] using this


/-- At a standalone operator that has a following word the loop body cuts the argument
list before the operator and leaves the array alone. -/
theorem parseRedirectStep_standalone (i : Nat) (s : RedirectState)
    (hop : s.cmdSlice.getD i [] ∈ standaloneOps) (hi : i + 1 < s.cmdSlice.length) :
    (parseRedirectStep i s).actualCmdSlice = s.cmdSlice.take i
      ∧ (parseRedirectStep i s).cmdSlice = s.cmdSlice := by
  simp only [standaloneOps, List.mem_cons, List.mem_singleton, List.not_mem_nil,
    or_false] at hop
  rcases hop with h | h | h | h | h | h <;>
    · simp only [parseRedirectStep, h, hi]
      simp

/-- At a glued redirection word the loop body splices the word out. -/
theorem parseRedirectStep_glued (i : Nat) (s : RedirectState)
    (htok : isRedirectToken (s.cmdSlice.getD i []) = true)
    (hns : s.cmdSlice.getD i [] ∉ standaloneOps) :
    (parseRedirectStep i s).actualCmdSlice = spliced s.cmdSlice i
      ∧ (parseRedirectStep i s).cmdSlice = arrayAfterSplice s.cmdSlice i := by
  simp only [parseRedirectStep]
  generalize s.cmdSlice.getD i [] = g at htok hns ⊢
  have htok2 : HasPrefix g ['>'] = true ∨ HasPrefix g ['1', '>'] = true
      ∨ HasPrefix g ['2', '>'] = true := by
    simp only [isRedirectToken, Bool.or_eq_true, decide_eq_true_eq] at htok
    tauto
  simp only [standaloneOps, List.mem_cons, List.mem_singleton, List.not_mem_nil,
    or_false, not_or] at hns
  obtain ⟨h1, h2, h3, h4, h5, h6⟩ := hns
  simp only [h1, h2, h3, h4, h5, h6, or_self, ↓reduceIte]
  by_cases c1 : HasPrefix g ['1', '>', '>'] = true
  · simp [c1, RedirectState.splice]
  by_cases c2 : HasPrefix g ['>', '>'] = true
  · simp [c1, c2, RedirectState.splice]
  by_cases c3 : HasPrefix g ['1', '>'] = true
  · simp [c1, c2, c3, RedirectState.splice]
  by_cases c4 : HasPrefix g ['>'] = true
  · simp [c1, c2, c3, c4, RedirectState.splice]
  by_cases c5 : HasPrefix g ['2', '>', '>'] = true
  · simp [c1, c2, c3, c4, c5, RedirectState.splice]
  have c6 : HasPrefix g ['2', '>'] = true := by tauto
  simp [c1, c2, c3, c4, c5, c6, RedirectState.splice]

/-- C3 (amended): the argument list returned by `ParseRedirect` holds no redirection token
(no standalone operator and no word starting with `>`, `1>` or `2>`) for every word sequence
that has no redirection token, or whose leftmost redirection token is a standalone operator
followed by at least one more word, or whose only redirection token is a glued form.  (A
standalone operator in last position has no target; it is not a redirection and stays.) -/
theorem parseRedirect_no_token (words : List Str)
    (h : NoRedirect words
      ∨ (∃ args op rest, words = args ++ op :: rest ∧ NoRedirect args
          ∧ op ∈ standaloneOps ∧ rest ≠ [])
      ∨ (∃ pre g post, words = pre ++ g :: post ∧ NoRedirect pre ∧ NoRedirect post
          ∧ isRedirectToken g = true ∧ g ∉ standaloneOps)) :
    NoRedirect (ParseRedirect words).1 := by
  rcases h with h | ⟨args, op, rest, rfl, hargs, hop, hrest⟩
      | ⟨pre, g, post, rfl, hpre, hpost, hg, hgs⟩
  · have : parseRedirectLoop words.length ⟨words, words, [], [], [], []⟩
        = ⟨words, words, [], [], [], []⟩ :=
      parseRedirectLoop_skip_all _ _ (fun j hj => h _ (getD_mem hj))
    simp only [ParseRedirect, this]
    exact h
  · have hrl : 0 < rest.length := List.length_pos.2 hrest
    have elen : (args ++ op :: rest).length = (args.length + 1) + rest.length := by
      simp; omega
    obtain ⟨s2, e1, e2, e3⟩ := parseRedirectLoop_upper (args.length + 1) rest.length
      ⟨args ++ op :: rest, args ++ op :: rest, [], [], [], []⟩ (by simp; omega)
    simp only at e2 e3
    have harg : s2.cmdSlice.getD args.length [] = op := by
      rw [getD_of_take_eq e2 (Nat.lt_succ_self _),
        List.getD_append_right _ _ _ _ (le_refl _)]
      simp
    have hlt : args.length + 1 < s2.cmdSlice.length := by
      rw [e3]
      simp only [List.length_append, List.length_cons]
      omega
    obtain ⟨f1, f2⟩ := parseRedirectStep_standalone args.length s2 (harg ▸ hop) hlt
    have htake : s2.cmdSlice.take args.length = args := by
      have := congrArg (List.take args.length) e2
      simpa [List.take_take] using this
    have hlow : parseRedirectLoop args.length (parseRedirectStep args.length s2)
        = parseRedirectStep args.length s2 := by
      apply parseRedirectLoop_skip_all
      intro j hj
      rw [f2, getD_of_take_eq e2 (Nat.lt_succ_of_lt hj)]
      exact not_token_getD_left _ hargs hj
    have : (ParseRedirect (args ++ op :: rest)).1 = args := by
      simp only [ParseRedirect]
      rw [elen, e1]
      show (parseRedirectLoop args.length (parseRedirectStep args.length s2)).actualCmdSlice
        = args
      rw [hlow, f1, htake]
    rw [this]
    exact hargs
  · have elen : (pre ++ g :: post).length = (pre.length + 1) + post.length := by
      simp; omega
    have hskip := parseRedirectLoop_skip (pre.length + 1) post.length
      ⟨pre ++ g :: post, pre ++ g :: post, [], [], [], []⟩
      (fun j h1 h2 => by
        have e : pre ++ g :: post = (pre ++ [g]) ++ post := by simp
        simp only [e]
        exact not_token_getD_right _ hpost (by simpa using h1) (by simp; omega))
    have harg : (pre ++ g :: post).getD pre.length [] = g := by
      rw [List.getD_append_right _ _ _ _ (le_refl _)]
      simp
    obtain ⟨f1, f2⟩ := parseRedirectStep_glued pre.length
      ⟨pre ++ g :: post, pre ++ g :: post, [], [], [], []⟩ (by rw [harg]; exact hg)
      (by rw [harg]; exact hgs)
    simp only at f1 f2
    have hlow : parseRedirectLoop pre.length (parseRedirectStep pre.length
        ⟨pre ++ g :: post, pre ++ g :: post, [], [], [], []⟩)
        = parseRedirectStep pre.length ⟨pre ++ g :: post, pre ++ g :: post, [], [], [], []⟩ := by
      apply parseRedirectLoop_skip_all
      intro j hj
      rw [f2, arrayAfterSplice, spliced_middle, List.append_assoc]
      exact not_token_getD_left _ hpre hj
    have : (ParseRedirect (pre ++ g :: post)).1 = pre ++ post := by
      simp only [ParseRedirect]
      rw [elen, hskip]
      show (parseRedirectLoop pre.length (parseRedirectStep pre.length _)).actualCmdSlice = _
      rw [hlow, f1, spliced_middle]
    rw [this]
    intro w hw
    rcases List.mem_append.1 hw with h | h
    · exact hpre w h
    · exact hpost w h


/-- C3, counterexample: on `[cmd, >]` the operator has no target and `ParseRedirect`
returns it in the argument list. -/
theorem parseRedirect_keeps_token_counterexample :
    (ParseRedirect ["cmd".toList, ">".toList]).1 = ["cmd".toList, ">".toList]
      ∧ ¬ NoRedirect (ParseRedirect ["cmd".toList, ">".toList]).1 := by decide

/-- C3 (amended), witness: in `[cmd, x, >, f, 2>b]` the leftmost redirection token is the
standalone `>` with a following word, and the result `[cmd, x]` holds no token. -/
theorem parseRedirect_no_token_witness :
    NoRedirect (ParseRedirect (["cmd".toList, "x".toList] ++ ['>'] ::
      ["f".toList, "2>b".toList])).1 :=
  parseRedirect_no_token _ (Or.inr (Or.inl ⟨["cmd".toList, "x".toList], ['>'],
    ["f".toList, "2>b".toList], rfl, by decide, by decide, by decide⟩))

/-- The two sequences with several redirections: a glued word spliced out at a lower
index copies the cells above it back into the result, so `2>b`, and `2>` with its target,
return to the argument list. -/
theorem parseRedirect_two_redirections :
    ParseRedirect ["cmd".toList, ">a".toList, "2>b".toList]
        = (["cmd".toList, "2>b".toList], "a".toList, "b".toList, [], [])
      ∧ ParseRedirect ["cmd".toList, ">a".toList, "2>".toList, "err".toList]
        = (["cmd".toList, "2>".toList, "err".toList], "a".toList, "err".toList, [], []) := by
  decide

/-- C9, witness: `[cmd, x, 2>>, log, y]` gives the arguments `[cmd, x]` and the
standard-error append path `log`. -/
theorem parseRedirect_standalone_witness :
    ParseRedirect (["cmd".toList, "x".toList] ++ [['2', '>', '>'], "log".toList]
        ++ ["y".toList])
      = (["cmd".toList, "x".toList], pathsFor ['2', '>', '>'] "log".toList) :=
  parseRedirect_standalone ["cmd".toList, "x".toList] ["y".toList] "log".toList
    ['2', '>', '>'] (by decide) (by decide) (by decide) (by decide)

/-- C10, witness: `[cmd, 1>out, y]` gives the arguments `[cmd, y]` and the standard-output
truncate path `out`. -/
theorem parseRedirect_glued_witness :
    ParseRedirect (["cmd".toList] ++ [['1', '>'] ++ "out".toList] ++ ["y".toList])
      = (["cmd".toList] ++ ["y".toList], pathsFor ['1', '>'] "out".toList) :=
  parseRedirect_glued ["cmd".toList] ["y".toList] ['1', '>'] "out".toList
    (by decide) (by decide) (by decide) (by decide) (by decide)

/-! ## `ParsePipe`, `runEchoBuiltin` -/

/-- C4, the failing line `echo "a\"|b" | cat`: `ParsePipe` cuts at index 9, the `|` after
the escaped double quote, and returns the stages `echo "a\"` and `b" | cat`, while the scan
of `ParseCommand` is inside double quotes at index 9 and yields the words `echo`, `a"|b`,
`|`, `cat`. -/
theorem parsePipe_cuts_after_escaped_quote :
    ParsePipe "echo \"a\\\"|b\" | cat".toList = ["echo \"a\\\"".toList, "b\" | cat".toList]
      ∧ pipeCuts "echo \"a\\\"|b\" | cat".toList = [9]
      ∧ 9 ∉ unquotedIndices "echo \"a\\\"|b\" | cat".toList
      ∧ ParseCommand "echo \"a\\\"|b\" | cat".toList
          = ["echo".toList, "a\"|b".toList, "|".toList, "cat".toList] := by
  decide

/-- C5, counterexample: for the line `echo 'it''s'` neither the word list of `ParseCommand`
nor the text written by `runEchoBuiltin` holds a quote character. -/
theorem echo_adjacent_quotes_counterexample :
    ParseCommand "echo 'it''s'".toList ≠ ["echo".toList, "it's".toList]
      ∧ runEchoBuiltin "echo 'it''s'".toList ≠ "it's\n".toList := by
  decide

/-- C5 (amended): for the line `echo 'it''s'`, `ParseCommand` yields `[echo, its]`, the two
adjacent quotes splicing `it` and `s` without leaving a quote character, and
`runEchoBuiltin` writes `its` followed by one newline. -/
theorem echo_adjacent_quotes_splice :
    ParseCommand "echo 'it''s'".toList = ["echo".toList, "its".toList]
      ∧ runEchoBuiltin "echo 'it''s'".toList = "its\n".toList := by
  decide

/-! ## `executePipeline` -/

theorem buildProcesses_started (find : Str → Option Str) :
    ∀ (commands : List pipelineCommand) (acc processes : List pipelineProcess),
      buildProcesses find commands acc = .started processes →
      ∃ tail, processes = acc ++ tail ∧ tail.length = commands.length ∧
        ∀ i cmd, commands.get? i = some cmd → runsAsBuiltin cmd = false →
          ∃ fullPath, find cmd.name = some fullPath ∧
            tail.get? i = some (.externalProcess fullPath ([cmd.name] ++ cmd.args.drop 1)) := by
  intro commands
  induction commands with
  | nil =>
    intro acc processes h
    simp only [buildProcesses, PipelineOutcome.started.injEq] at h
    exact ⟨[], by simp [h], rfl, by simp⟩
  | cons c rest ih =>
    intro acc processes h
    rw [buildProcesses] at h
    by_cases hb : runsAsBuiltin c = true
    · have hb2 := hb
      simp only [runsAsBuiltin] at hb2
      simp only [hb2, ↓reduceIte] at h
      obtain ⟨tail, e1, e2, e3⟩ := ih _ _ h
      refine ⟨.builtinProcess c :: tail, by simp [e1], by simp [e2], ?_⟩
      intro i cmd hi hcmd
      cases i with
      | zero =>
        simp only [List.get?_cons_zero, Option.some.injEq] at hi
        subst hi
        rw [hb] at hcmd
        cases hcmd
      | succ i => simpa using e3 i cmd (by simpa using hi) hcmd
    · have hb2 := hb
      simp only [runsAsBuiltin] at hb2
      simp only [hb2, Bool.false_eq_true, ↓reduceIte] at h
      cases hf : find c.name with
      | none => simp [hf] at h
      | some fullPath =>
        simp only [hf] at h
        obtain ⟨tail, e1, e2, e3⟩ := ih _ _ h
        refine ⟨.externalProcess fullPath ([c.name] ++ c.args.drop 1) :: tail, by simp [e1],
          by simp [e2], ?_⟩
        intro i cmd hi hcmd
        cases i with
        | zero =>
          simp only [List.get?_cons_zero, Option.some.injEq] at hi
          subst hi
          exact ⟨fullPath, hf, by simp⟩
        | succ i => simpa using e3 i cmd (by simpa using hi) hcmd

theorem runsAsBuiltin_other {cmd : pipelineCommand} (h : cmd.name ∈ otherBuiltins) :
    runsAsBuiltin cmd = false := by
  simp only [otherBuiltins, List.mem_cons, List.mem_singleton, List.not_mem_nil,
    or_false] at h
  rcases h with h | h | h | h <;> simp [runsAsBuiltin, h]

theorem buildProcesses_all_resolve (find : Str → Option Str) :
    ∀ (commands : List pipelineCommand) (acc : List pipelineProcess),
      (∀ stage ∈ commands, stageResolves find stage = true) →
      ∃ processes, buildProcesses find commands acc = .started processes := by
  intro commands
  induction commands with
  | nil => intro acc _; exact ⟨acc, rfl⟩
  | cons c rest ih =>
    intro acc h
    have hc := h c (List.mem_cons_self _ _)
    have hrest : ∀ stage ∈ rest, stageResolves find stage = true :=
      fun s hs => h s (List.mem_cons_of_mem _ hs)
    rw [buildProcesses]
    by_cases hb : runsAsBuiltin c = true
    · simp only [runsAsBuiltin] at hb
      simp only [hb, ↓reduceIte]
      exact ih _ hrest
    · have hb2 := hb
      simp only [runsAsBuiltin] at hb2
      simp only [hb2, Bool.false_eq_true, ↓reduceIte]
      cases hf : find c.name with
      | none => simp [stageResolves, hb, hf] at hc
      | some fullPath => exact ih _ hrest

theorem buildProcesses_first_unresolved (find : Str → Option Str) :
    ∀ (commands : List pipelineCommand) (acc : List pipelineProcess) (i : Nat)
      (cmd : pipelineCommand),
      commands.get? i = some cmd → stageResolves find cmd = false →
      ∃ j stage, j ≤ i ∧ commands.get? j = some stage ∧ stageResolves find stage = false
        ∧ (∀ s ∈ commands.take j, stageResolves find s = true)
        ∧ buildProcesses find commands acc
            = .aborted (stage.name ++ ": command not found\n".toList) := by
  intro commands
  induction commands with
  | nil => intro acc i cmd h; simp at h
  | cons c rest ih =>
    intro acc i cmd hi hcmd
    by_cases hc : stageResolves find c = true
    · cases i with
      | zero =>
        simp only [List.get?_cons_zero, Option.some.injEq] at hi
        subst hi
        rw [hc] at hcmd
        cases hcmd
      | succ i =>
        have hi2 : rest.get? i = some cmd := by simpa using hi
        have step : ∀ acc, ∃ acc2, buildProcesses find (c :: rest) acc
            = buildProcesses find rest acc2 := by
          intro acc
          rw [buildProcesses]
          by_cases hb : runsAsBuiltin c = true
          · simp only [runsAsBuiltin] at hb
            simp only [hb, ↓reduceIte]
            exact ⟨_, rfl⟩
          · have hb2 := hb
            simp only [runsAsBuiltin] at hb2
            simp only [hb2, Bool.false_eq_true, ↓reduceIte]
            cases hf : find c.name with
            | none => simp [stageResolves, hb, hf] at hc
            | some fullPath => exact ⟨_, rfl⟩
        obtain ⟨acc2, e⟩ := step acc
        obtain ⟨j, stage, h1, h2, h3, h4, h5⟩ := ih acc2 i cmd hi2 hcmd
        refine ⟨j + 1, stage, by omega, by simpa using h2, h3, ?_, by rw [e, h5]⟩
        intro s hs
        rw [List.take_succ_cons] at hs
        rcases List.mem_cons.1 hs with h | h
        · rw [h]; exact hc
        · exact h4 s h
    · have hc2 : stageResolves find c = false := by simpa using hc
      refine ⟨0, c, by omega, by simp, hc2, by simp, ?_⟩
      simp only [stageResolves, Bool.or_eq_false_iff] at hc2
      obtain ⟨hb, hf⟩ := hc2
      have hf2 : find c.name = none := by
        cases h : find c.name with
        | none => rfl
        | some p => simp [h] at hf
      have hb2 := hb
      simp only [runsAsBuiltin] at hb2
      rw [buildProcesses]
      simp only [hb2, Bool.false_eq_true, ↓reduceIte, hf2]

/-- C6 (amended): `runBuiltinCommand` answers a builtin name other than `echo` and `type`
with `<name>: unsupported pipeline builtin` on the error stream and nothing on the output
stream, but `executePipeline` never hands it such a stage: a stage named `exit`, `pwd`, `cd`
or `history` is looked up on the executable search path like any external command.  For a
pipeline of at least two stages whose stage `i` has such a name:

* whenever the pipeline is started, stage `i` is the external process for the path that
  `find` returns for the name, with `argv[0]` the typed name;
* when every stage resolves (it is a builtin `echo` or `type`, or `find` finds its name) the
  pipeline is started, with one process per stage;
* when `find` does not find the name, the pipeline is aborted and nothing is started; the
  message is `<name>: command not found` for the name of the first stage that does not
  resolve, which is stage `i` itself when every stage before it resolves. -/
theorem executePipeline_other_builtin_is_external (find : Str → Option Str)
    (commands : List pipelineCommand) (i : Nat) (cmd : pipelineCommand)
    (hlen : 2 ≤ commands.length) (hi : commands.get? i = some cmd)
    (hname : cmd.name ∈ otherBuiltins) :
    runBuiltinCommand find cmd = ([], cmd.name ++ ": unsupported pipeline builtin\n".toList)
      ∧ (∀ processes, executePipeline find commands = .started processes →
          ∃ fullPath, find cmd.name = some fullPath ∧
            processes.get? i
              = some (.externalProcess fullPath ([cmd.name] ++ cmd.args.drop 1)))
      ∧ ((∀ stage ∈ commands, stageResolves find stage = true) →
          ∃ processes, executePipeline find commands = .started processes
            ∧ processes.length = commands.length)
      ∧ (find cmd.name = none →
          ∃ j stage, j ≤ i ∧ commands.get? j = some stage
            ∧ stageResolves find stage = false
            ∧ (∀ s ∈ commands.take j, stageResolves find s = true)
            ∧ executePipeline find commands
                = .aborted (stage.name ++ ": command not found\n".toList))
      ∧ (find cmd.name = none →
          (∀ s ∈ commands.take i, stageResolves find s = true) →
          executePipeline find commands
            = .aborted (cmd.name ++ ": command not found\n".toList)) := by
  have hb := runsAsBuiltin_other hname
  have hl : ¬ commands.length < 2 := by omega
  have hun : find cmd.name = none → stageResolves find cmd = false := by
    intro hf
    simp [stageResolves, hb, hf]
  refine ⟨?_, ?_, ?_, ?_, ?_⟩
  · simp only [otherBuiltins, List.mem_cons, List.mem_singleton, List.not_mem_nil,
      or_false] at hname
    rcases hname with h | h | h | h <;> simp [runBuiltinCommand, h]
  · intro processes hp
    simp only [executePipeline, hl, ↓reduceIte] at hp
    obtain ⟨tail, e1, -, e3⟩ := buildProcesses_started find commands [] processes hp
    obtain ⟨fullPath, f1, f2⟩ := e3 i cmd hi hb
    exact ⟨fullPath, f1, by simpa [e1] using f2⟩
  · intro hall
    obtain ⟨processes, hp⟩ := buildProcesses_all_resolve find commands [] hall
    obtain ⟨tail, e1, e2, -⟩ := buildProcesses_started find commands [] processes hp
    refine ⟨processes, by simp only [executePipeline, hl, ↓reduceIte, hp], ?_⟩
    simp [e1, e2]
  · intro hf
    simp only [executePipeline, hl, ↓reduceIte]
    exact buildProcesses_first_unresolved find commands [] i cmd hi (hun hf)
  · intro hf hbefore
    simp only [executePipeline, hl, ↓reduceIte]
    obtain ⟨j, stage, h1, h2, h3, -, h5⟩ :=
      buildProcesses_first_unresolved find commands [] i cmd hi (hun hf)
    have hji : j = i := by
      by_contra hne
      have hmem : stage ∈ commands.take i := by
        apply List.get?_mem (n := j)
        rw [List.get?_eq_getElem?, List.getElem?_take_of_lt (by omega),
          ← List.get?_eq_getElem?]
        exact h2
      have := hbefore stage hmem
      rw [h3] at this
      cases this
    subst hji
    rw [hi] at h2
    cases h2
    exact h5

/-- C6 (amended), witness: the pipeline `cat | pwd` with only `cat` on the search path.
Stage 1 is `pwd`; the stage before it resolves, so the pipeline is aborted with
`pwd: command not found`. -/
theorem executePipeline_other_builtin_is_external_witness :
    executePipeline (fun name => if name = "cat".toList then some "/bin/cat".toList else none)
        [⟨["cat".toList], "cat".toList, false⟩, ⟨["pwd".toList], "pwd".toList, true⟩]
        = .aborted "pwd: command not found\n".toList :=
  (executePipeline_other_builtin_is_external
    (fun name => if name = "cat".toList then some "/bin/cat".toList else none)
    [⟨["cat".toList], "cat".toList, false⟩, ⟨["pwd".toList], "pwd".toList, true⟩] 1
    ⟨["pwd".toList], "pwd".toList, true⟩ (by decide) (by decide) (by decide)).2.2.2.2
    (by decide) (by decide)

/-- C6, counterexample: in the pipeline `pwd | cat`, with an empty search path
`executePipeline` prints `pwd: command not found` and starts nothing, and with `pwd` and
`cat` on the search path the stage `pwd` is an external process, not a builtin handle. -/
theorem executePipeline_other_builtin_counterexample :
    executePipeline (fun _ => none)
        [⟨["pwd".toList], "pwd".toList, true⟩, ⟨["cat".toList], "cat".toList, false⟩]
        = .aborted "pwd: command not found\n".toList
      ∧ executePipeline (fun name => some ("/bin/".toList ++ name))
        [⟨["pwd".toList], "pwd".toList, true⟩, ⟨["cat".toList], "cat".toList, false⟩]
        = .started [.externalProcess "/bin/pwd".toList ["pwd".toList],
            .externalProcess "/bin/cat".toList ["cat".toList]] := by
  decide

/-! ## `ParsePipe` against `ParseCommand` on lines without a backslash -/

theorem flush_flags (s : CommandState) :
    s.flush.inSingleQuotes = s.inSingleQuotes ∧ s.flush.inDoubleQuotes = s.inDoubleQuotes := by
  unfold CommandState.flush
  split <;> exact ⟨rfl, rfl⟩

theorem cut_flags (s : PipeState) :
    s.cut.inSingleQuotes = s.inSingleQuotes ∧ s.cut.inDoubleQuotes = s.inDoubleQuotes := by
  unfold PipeState.cut
  split <;> exact ⟨rfl, rfl⟩

/-- One step of both scans keeps them in agreement, when the byte is no backslash. -/
theorem scansAgree_step (c : Char) (rest : List Char) (sc : CommandState) (kc : Bool)
    (sp : PipeState) (kp : Bool) (hc : c ≠ '\\') (h : ScansAgree (c :: rest) sc kc sp kp) :
    ScansAgree rest
      (if kc then sc else (parseCommandStep c rest.head? sc).1)
      (if kc then false else (parseCommandStep c rest.head? sc).2)
      (if kp then sp else (parsePipeStep c rest.head? sp).1)
      (if kp then false else (parsePipeStep c rest.head? sp).2) := by
  obtain ⟨cs, cd, ca, cargs⟩ := sc
  obtain ⟨ps, pd, pa, pparts⟩ := sp
  have f1 := fun s => (flush_flags s).1
  have f2 := fun s => (flush_flags s).2
  have g1 := fun s => (cut_flags s).1
  have g2 := fun s => (cut_flags s).2
  rcases h with ⟨h1, h2, h3⟩ | ⟨h0, h1, h2, h3, h4, h5⟩ | ⟨h0, h1, h2, h3, h4, h5⟩
  · simp only at h1 h2
    subst h1 h2 h3
    by_cases hk : kc = true
    · subst hk
      simp [ScansAgree]
    · simp only [Bool.not_eq_true] at hk
      subst hk
      by_cases hq1 : c = '\''
      · subst hq1
        by_cases hn : rest.head? = some '\''
        · cases cs <;> cases cd <;>
            simp [ScansAgree, parseCommandStep, parsePipeStep, hn, f1, f2,
              CommandState.write, PipeState.write]
        · cases cs <;> cases cd <;>
            simp [ScansAgree, parseCommandStep, parsePipeStep, hn, f1, f2,
              CommandState.write, PipeState.write]
      · by_cases hq2 : c = '"'
        · subst hq2
          by_cases hn : rest.head? = some '"'
          · cases cs <;> cases cd <;>
              simp [ScansAgree, parseCommandStep, parsePipeStep, hn, f1, f2,
                CommandState.write, PipeState.write]
          · cases cs <;> cases cd <;>
              simp [ScansAgree, parseCommandStep, parsePipeStep, hn, f1, f2,
                CommandState.write, PipeState.write]
        · left
          by_cases hp : c = '|'
          · subst hp
            cases cs <;> cases cd <;>
              simp [parseCommandStep, parsePipeStep, f1, f2, g1, g2,
                CommandState.write, PipeState.write]
          · by_cases hb : c = ' ' ∨ c = '\t'
            · cases cs <;> cases cd <;>
                simp [parseCommandStep, parsePipeStep, f1, f2, g1, g2, hq1, hq2, hp, hc,
                  hb, CommandState.write, PipeState.write]
            · simp only [not_or] at hb
              cases cs <;> cases cd <;>
                simp [parseCommandStep, parsePipeStep, f1, f2, g1, g2, hq1, hq2, hp, hc,
                  hb.1, hb.2, CommandState.write, PipeState.write]
  · simp only [List.head?_cons, Option.some.injEq] at h0
    simp only at h1 h2 h3 h4
    subst h0 h1 h2 h3 h4 h5
    by_cases hn : rest.head? = some '\''
    · cases kp <;>
        simp [ScansAgree, parseCommandStep, parsePipeStep, hn, f1, f2,
          CommandState.write, PipeState.write]
    · cases kp <;>
        simp [ScansAgree, parseCommandStep, parsePipeStep, hn, f1, f2,
          CommandState.write, PipeState.write]
  · simp only [List.head?_cons, Option.some.injEq] at h0
    simp only at h1 h2 h3 h4
    subst h0 h1 h2 h3 h4 h5
    by_cases hn : rest.head? = some '"'
    · cases kp <;>
        simp [ScansAgree, parseCommandStep, parsePipeStep, hn, f1, f2,
          CommandState.write, PipeState.write]
    · cases kp <;>
        simp [ScansAgree, parseCommandStep, parsePipeStep, hn, f1, f2,
          CommandState.write, PipeState.write]

theorem pipeCutsFrom_cons (c : Char) (rest : List Char) (i : Nat) (sp : PipeState)
    (kp : Bool) :
    pipeCutsFrom (c :: rest) i sp kp
      = (if kp = false ∧ c = '|' ∧ sp.inSingleQuotes = false ∧ sp.inDoubleQuotes = false
          then [i] else [])
        ++ pipeCutsFrom rest (i + 1) (if kp then sp else (parsePipeStep c rest.head? sp).1)
            (if kp then false else (parsePipeStep c rest.head? sp).2) := by
  cases kp <;> simp [pipeCutsFrom]

theorem unquotedFrom_cons (c : Char) (rest : List Char) (i : Nat) (sc : CommandState)
    (kc : Bool) :
    unquotedFrom (c :: rest) i sc kc
      = (if kc = false ∧ sc.inSingleQuotes = false ∧ sc.inDoubleQuotes = false
          then [i] else [])
        ++ unquotedFrom rest (i + 1) (if kc then sc else (parseCommandStep c rest.head? sc).1)
            (if kc then false else (parseCommandStep c rest.head? sc).2) := by
  cases kc <;> simp [unquotedFrom]

theorem pipeCutsFrom_subset (l : List Char) : ∀ (i : Nat) (sc : CommandState) (kc : Bool)
    (sp : PipeState) (kp : Bool), '\\' ∉ l → ScansAgree l sc kc sp kp →
    ∀ j ∈ pipeCutsFrom l i sp kp, j ∈ unquotedFrom l i sc kc := by
  induction l with
  | nil => intro i sc kc sp kp _ _ j hj; simp [pipeCutsFrom] at hj
  | cons c rest ih =>
    intro i sc kc sp kp hbs h j hj
    have hc : c ≠ '\\' := fun e => hbs (e ▸ List.mem_cons_self _ _)
    have hrest : '\\' ∉ rest := fun e => hbs (List.mem_cons_of_mem _ e)
    rw [pipeCutsFrom_cons, List.mem_append] at hj
    rw [unquotedFrom_cons, List.mem_append]
    rcases hj with hj | hj
    · left
      by_cases hcut : kp = false ∧ c = '|' ∧ sp.inSingleQuotes = false
          ∧ sp.inDoubleQuotes = false
      · simp only [hcut, and_self, ↓reduceIte, List.mem_singleton] at hj
        obtain ⟨k1, -, k3, k4⟩ := hcut
        rcases h with ⟨h1, h2, h3⟩ | ⟨-, -, -, h3, -, -⟩ | ⟨-, -, -, -, h4, -⟩
        · simp [h1, h2, h3, k1, k3, k4, hj]
        · rw [k3] at h3; cases h3
        · rw [k4] at h4; cases h4
      · simp [hcut] at hj
    · right
      exact ih _ _ _ _ _ hrest (scansAgree_step c rest sc kc sp kp hc h) j hj

/-- On a line without a backslash `ParsePipe` cuts only at indices that the scan of
`ParseCommand` reaches outside quotes: without the escape case the two quote trackers
agree. -/
theorem pipeCuts_subset_unquoted (line : Str) (h : '\\' ∉ line) :
    ∀ j ∈ pipeCuts line, j ∈ unquotedIndices line :=
  pipeCutsFrom_subset line 0 _ _ _ _ h (Or.inl ⟨rfl, rfl, rfl⟩)

/-! ## `Trie` -/

theorem search_nil (isEnd : Bool) (children : List (Char × Trie)) :
    (Trie.node isEnd children).Search [] = isEnd := by
  simp [Trie.Search, Trie.SearchWithPrefix, Trie.isEnd]

theorem search_cons (isEnd : Bool) (children : List (Char × Trie)) (ch : Char) (w : Str) :
    (Trie.node isEnd children).Search (ch :: w)
      = match childAt ch children with
        | none => false
        | some child => child.Search w := by
  simp only [Trie.Search, Trie.SearchWithPrefix]
  cases childAt ch children <;> rfl

theorem childAt_setChild (c d : Char) (t : Trie) (children : List (Char × Trie)) :
    childAt d (setChild c t children) = if d = c then some t else childAt d children := by
  induction children with
  | nil =>
    by_cases h : d = c
    · simp [setChild, childAt, h]
    · simp [setChild, childAt, h, Ne.symm h]
  | cons kv rest ih =>
    obtain ⟨k, u⟩ := kv
    by_cases hk : k = c
    · subst hk
      by_cases h : d = k
      · simp [setChild, childAt, h]
      · simp [setChild, childAt, h, Ne.symm h]
    · by_cases h : d = c
      · subst h
        simp [setChild, childAt, hk, ih]
      · simp only [setChild, hk, ↓reduceIte, childAt, ih, h]

theorem search_constructor (w : Str) : Constructor.Search w = false := by
  cases w with
  | nil => rfl
  | cons c w => simp [Constructor, search_cons, childAt]

/-- A word is found after `Insert(word)` exactly when it is `word` or was found before. -/
theorem search_insert (word : Str) : ∀ (t : Trie) (x : Str),
    (t.Insert word).Search x = (decide (x = word) || t.Search x) := by
  induction word with
  | nil =>
    intro t x
    obtain ⟨e, ch⟩ := t
    cases x with
    | nil => simp [Trie.Insert, search_nil]
    | cons d xs => simp [Trie.Insert, search_cons]
  | cons c ws ih =>
    intro t x
    obtain ⟨e, ch⟩ := t
    cases x with
    | nil => simp [Trie.Insert, search_nil]
    | cons d xs =>
      simp only [Trie.Insert, search_cons, childAt_setChild]
      by_cases hd : d = c
      · subst hd
        simp only [↓reduceIte, ih, List.cons.injEq, true_and]
        cases hc : childAt d ch with
        | none => simp [search_constructor]
        | some child => simp
      · simp [hd]

theorem search_trieOf_aux (words : List Str) : ∀ (t : Trie) (x : Str),
    (words.foldl (fun t w => t.Insert w) t).Search x = (decide (x ∈ words) || t.Search x) := by
  induction words with
  | nil => intro t x; simp
  | cons w ws ih =>
    intro t x
    simp only [List.foldl_cons, ih, search_insert, List.mem_cons]
    by_cases h1 : x = w <;> by_cases h2 : x ∈ ws <;> simp [h1, h2]

/-- The words found in `trieOf words` are the inserted ones. -/
theorem search_trieOf (words : List Str) (x : Str) :
    (trieOf words).Search x = decide (x ∈ words) := by
  simp [trieOf, search_trieOf_aux, search_constructor]

theorem wf_node (isEnd : Bool) (children : List (Char × Trie)) :
    (Trie.node isEnd children).WF ↔ WFChildren children := by
  simp [Trie.WF]

theorem wfChildren_cons (ch : Char) (child : Trie) (rest : List (Char × Trie)) :
    WFChildren ((ch, child) :: rest)
      ↔ childAt ch rest = none ∧ child.WF ∧ WFChildren rest := by
  simp [WFChildren]

theorem wf_constructor : Constructor.WF := by
  simp [Constructor, Trie.WF, WFChildren]

theorem childAt_wf {children : List (Char × Trie)} (h : WFChildren children) {c : Char}
    {t : Trie} (hc : childAt c children = some t) : t.WF := by
  induction children with
  | nil => simp [childAt] at hc
  | cons kv rest ih =>
    obtain ⟨k, u⟩ := kv
    rw [wfChildren_cons] at h
    by_cases hk : k = c
    · simp only [childAt, hk, ↓reduceIte, Option.some.injEq] at hc
      exact hc ▸ h.2.1
    · simp only [childAt, hk, ↓reduceIte] at hc
      exact ih h.2.2 hc

theorem wfChildren_setChild {children : List (Char × Trie)} (h : WFChildren children)
    (c : Char) {t : Trie} (ht : t.WF) : WFChildren (setChild c t children) := by
  induction children with
  | nil => simp [setChild, WFChildren, childAt, ht]
  | cons kv rest ih =>
    obtain ⟨k, u⟩ := kv
    rw [wfChildren_cons] at h
    by_cases hk : k = c
    · simp only [setChild, hk, ↓reduceIte, wfChildren_cons]
      exact ⟨hk ▸ h.1, ht, h.2.2⟩
    · simp only [setChild, hk, ↓reduceIte, wfChildren_cons, childAt_setChild]
      exact ⟨h.1, h.2.1, ih h.2.2⟩

theorem wf_insert (word : Str) : ∀ (t : Trie), t.WF → (t.Insert word).WF := by
  induction word with
  | nil =>
    intro t h
    obtain ⟨e, ch⟩ := t
    simpa [Trie.Insert, wf_node] using h
  | cons c ws ih =>
    intro t h
    obtain ⟨e, ch⟩ := t
    rw [wf_node] at h
    simp only [Trie.Insert, wf_node]
    apply wfChildren_setChild h
    apply ih
    cases hc : childAt c ch with
    | none => exact wf_constructor
    | some child => exact childAt_wf h hc

theorem wf_trieOf (words : List Str) : (trieOf words).WF := by
  have : ∀ (t : Trie), t.WF → (words.foldl (fun t w => t.Insert w) t).WF := by
    induction words with
    | nil => intro t h; exact h
    | cons w ws ih => intro t h; exact ih _ (wf_insert w t h)
  exact this _ wf_constructor

/-- Looking up `pre ++ s` is looking up `s` below the node that `SearchWithPrefix(pre)`
returns. -/
theorem search_append (pre : Str) : ∀ (t : Trie) (s : Str),
    t.Search (pre ++ s)
      = match t.SearchWithPrefix pre with
        | none => false
        | some found => found.Search s := by
  induction pre with
  | nil => intro t s; simp [Trie.SearchWithPrefix]
  | cons c p ih =>
    intro t s
    obtain ⟨e, ch⟩ := t
    simp only [List.cons_append, search_cons, Trie.SearchWithPrefix]
    cases hc : childAt c ch with
    | none => rfl
    | some child => exact ih child s

theorem searchWithPrefix_wf (pre : Str) : ∀ (t found : Trie), t.WF →
    t.SearchWithPrefix pre = some found → found.WF := by
  induction pre with
  | nil =>
    intro t found h hs
    simp only [Trie.SearchWithPrefix, Option.some.injEq] at hs
    exact hs ▸ h
  | cons c p ih =>
    intro t found h hs
    obtain ⟨e, ch⟩ := t
    rw [wf_node] at h
    simp only [Trie.SearchWithPrefix] at hs
    cases hc : childAt c ch with
    | none => simp [hc] at hs
    | some child =>
      simp only [hc] at hs
      exact ih child found (childAt_wf h hc) hs

mutual
/-- The words `collectWords` gathers below a node are the prefix extended by the words
found from that node. -/
theorem mem_collectWords : ∀ (t : Trie) (p x : Str), t.WF →
    (x ∈ collectWords t p ↔ ∃ s, x = p ++ s ∧ t.Search s = true)
  | .node e ch, p, x, h => by
    rw [collectWords, List.mem_append, mem_collectChildren ch p x ((wf_node _ _).1 h)]
    constructor
    · rintro (h1 | ⟨c, s, child, hc, rfl, hs⟩)
      · by_cases he : e = true
        · simp only [he, ↓reduceIte, List.mem_singleton] at h1
          exact ⟨[], by simp [h1], by simp [search_nil, he]⟩
        · simp [he] at h1
      · exact ⟨c :: s, rfl, by simp [search_cons, hc, hs]⟩
    · rintro ⟨s, rfl, hs⟩
      cases s with
      | nil =>
        rw [search_nil] at hs
        left
        simp [hs]
      | cons c s =>
        rw [search_cons] at hs
        right
        cases hc : childAt c ch with
        | none => simp [hc] at hs
        | some child =>
          simp only [hc] at hs
          exact ⟨c, s, child, hc, rfl, hs⟩
/-- The words gathered by the loop over the children, one key at a time. -/
theorem mem_collectChildren : ∀ (ch : List (Char × Trie)) (p x : Str), WFChildren ch →
    (x ∈ collectChildren ch p
      ↔ ∃ c s child, childAt c ch = some child ∧ x = p ++ c :: s ∧ child.Search s = true)
  | [], p, x, _ => by simp [collectChildren, childAt]
  | (c, t) :: rest, p, x, h => by
    rw [wfChildren_cons] at h
    rw [collectChildren, List.mem_append, mem_collectWords t (p ++ [c]) x h.2.1,
      mem_collectChildren rest p x h.2.2]
    constructor
    · rintro (⟨s, rfl, hs⟩ | ⟨d, s, child, hd, rfl, hs⟩)
      · exact ⟨c, s, t, by simp [childAt], by simp, hs⟩
      · have hne : c ≠ d := by
          rintro rfl
          rw [h.1] at hd
          cases hd
        exact ⟨d, s, child, by simp [childAt, hne, hd], rfl, hs⟩
    · rintro ⟨d, s, child, hd, rfl, hs⟩
      by_cases hcd : c = d
      · subst hcd
        simp only [childAt, ↓reduceIte, Option.some.injEq] at hd
        subst hd
        exact Or.inl ⟨s, by simp, hs⟩
      · simp only [childAt, hcd, ↓reduceIte] at hd
        exact Or.inr ⟨d, s, child, hd, rfl, hs⟩
end

mutual
/-- No word is gathered twice below a node. -/
theorem nodup_collectWords : ∀ (t : Trie) (p : Str), t.WF → (collectWords t p).Nodup
  | .node e ch, p, h => by
    have hch := (wf_node _ _).1 h
    rw [collectWords, List.nodup_append]
    refine ⟨?_, nodup_collectChildren ch p hch, ?_⟩
    · by_cases he : e = true <;> simp [he]
    · intro x h1 h2
      obtain ⟨c, s, child, -, hx, -⟩ := (mem_collectChildren ch p x hch).1 h2
      by_cases he : e = true
      · simp only [he, ↓reduceIte, List.mem_singleton] at h1
        subst h1
        have := congrArg List.length hx
        simp at this
      · simp [he] at h1
/-- No word is gathered twice by the loop over the children. -/
theorem nodup_collectChildren : ∀ (ch : List (Char × Trie)) (p : Str), WFChildren ch →
    (collectChildren ch p).Nodup
  | [], p, _ => by simp [collectChildren]
  | (c, t) :: rest, p, h => by
    rw [wfChildren_cons] at h
    rw [collectChildren, List.nodup_append]
    refine ⟨nodup_collectWords t (p ++ [c]) h.2.1, nodup_collectChildren rest p h.2.2, ?_⟩
    intro x h1 h2
    obtain ⟨s, hx, -⟩ := (mem_collectWords t (p ++ [c]) x h.2.1).1 h1
    obtain ⟨d, s2, child, hd, hx2, -⟩ := (mem_collectChildren rest p x h.2.2).1 h2
    rw [hx, List.append_assoc] at hx2
    have hcd : c = d := by
      have := List.append_cancel_left hx2
      simp only [List.singleton_append, List.cons.injEq] at this
      exact this.1
    subst hcd
    rw [h.1] at hd
    cases hd
end

/-- The completions of a well-formed trie are the words found in it that extend the
prefix, whatever the order of its child lists. -/
theorem findCompletions_of_search (t : Trie) (words : List Str) (hwf : t.WF)
    (hsearch : ∀ x, t.Search x = decide (x ∈ words)) (p : Str) :
    (∀ x, x ∈ t.FindCompletions p ↔ x ∈ words ∧ p <+: x) ∧ (t.FindCompletions p).Nodup := by
  have key : ∀ s, (match t.SearchWithPrefix p with
      | none => false
      | some found => found.Search s) = decide (p ++ s ∈ words) := by
    intro s
    rw [← search_append, hsearch]
  have hmem : ∀ x, x ∈ t.FindCompletions p ↔ x ∈ words ∧ p <+: x := by
    intro x
    unfold Trie.FindCompletions
    cases h : t.SearchWithPrefix p with
    | none =>
      simp only [h] at key
      simp only [List.not_mem_nil, false_iff, not_and]
      rintro hx ⟨s, rfl⟩
      have := key s
      simp [hx] at this
    | some found =>
      simp only [h] at key
      simp only []
      rw [mem_collectWords found p x (searchWithPrefix_wf p _ _ hwf h)]
      constructor
      · rintro ⟨s, rfl, hs⟩
        rw [key s] at hs
        exact ⟨by simpa using hs, List.prefix_append p s⟩
      · rintro ⟨hx, s, rfl⟩
        exact ⟨s, rfl, by rw [key s]; simpa using hx⟩
  have hnodup : (t.FindCompletions p).Nodup := by
    unfold Trie.FindCompletions
    cases h : t.SearchWithPrefix p with
    | none => simp
    | some found => exact nodup_collectWords found p (searchWithPrefix_wf p _ _ hwf h)
  exact ⟨hmem, hnodup⟩

/-- C7: for every finite sequence `words` inserted into an empty trie (any order, repeats
allowed) and every prefix `p`, the list `FindCompletions(p)` holds exactly the inserted words
that have `p` as a prefix (`p` itself included if it was inserted), and no word twice. -/
theorem findCompletions_trieOf (words : List Str) (p : Str) :
    (∀ x, x ∈ (trieOf words).FindCompletions p ↔ x ∈ words ∧ p <+: x)
      ∧ ((trieOf words).FindCompletions p).Nodup :=
  findCompletions_of_search (trieOf words) words (wf_trieOf words) (search_trieOf words) p

/-! ## `CustomCompleter.Do` -/

/-- C13: single-quoted content is literal and an unterminated quote keeps its content.  For
every non-empty string `c` without a single quote (spaces, tabs, double quotes and
backslashes allowed), `ParseCommand("'" ++ c ++ "'") = [c]` and
`ParseCommand("'" ++ c) = [c]`. -/
theorem parseCommand_single_quoted (c : Str) (hc : c ≠ []) (hq : ∀ x ∈ c, x ≠ '\'') :
    ParseCommand (['\''] ++ c ++ ['\'']) = [c] ∧ ParseCommand (['\''] ++ c) = [c] := by
  have h1 : ∀ t : List Char, (c ++ t).head? ≠ some '\'' := by
    intro t
    cases c with
    | nil => exact absurd rfl hc
    | cons x r => simpa using hq x (List.mem_cons_self _ _)
  constructor
  · have e : ['\''] ++ c ++ ['\''] = '\'' :: (c ++ ['\'']) := by simp
    rw [e, parseCommand_eq _ false false c [], pushArg_of_ne hc]
    · rfl
    · rw [parseCommandLoop_open_single _ _ _ (h1 _), parseCommandLoop_single_run c _ _ _ hq,
        parseCommandLoop_close_single _ _ _ (by simp)]
      simp [parseCommandLoop, pushArg]
  · have e : ['\''] ++ c = '\'' :: (c ++ []) := by simp
    rw [e, parseCommand_eq _ true false c [], pushArg_of_ne hc]
    · rfl
    · rw [parseCommandLoop_open_single _ _ _ (h1 _), parseCommandLoop_single_run c _ _ _ hq]
      simp [parseCommandLoop, pushArg]

/-- C13, witness: the content `a b"c\` between single quotes, closed or not, is one word. -/
theorem parseCommand_single_quoted_witness :
    ParseCommand (['\''] ++ "a b\"c\\".toList ++ ['\'']) = ["a b\"c\\".toList]
      ∧ ParseCommand (['\''] ++ "a b\"c\\".toList) = ["a b\"c\\".toList] :=
  parseCommand_single_quoted "a b\"c\\".toList (by decide) (by decide)

/-- Outside quotes and on bytes that are no quotes, the loop of `ParseCommand` appends to
`args` the non-empty pieces between blanks, the first piece continuing `currentArg`. -/
theorem parseCommandLoop_blankRuns (l : List Char) (hl : ∀ c ∈ l, c ≠ '\'' ∧ c ≠ '"') :
    ∀ (cur : Str) (args : List Str),
      (parseCommandLoop l ⟨false, false, cur, args⟩ false).flush.args
        = args ++ ((l.splitOnP isBlank).modifyHead (cur ++ ·)).filter
            (fun w => decide (w ≠ [])) := by
  induction l with
  | nil =>
    intro cur args
    cases cur <;> simp [parseCommandLoop, flush_eq, pushArg]
  | cons c l ih =>
    intro cur args
    obtain ⟨h1, h2⟩ := hl c (List.mem_cons_self _ _)
    have hl2 : ∀ d ∈ l, d ≠ '\'' ∧ d ≠ '"' := fun d hd => hl d (List.mem_cons_of_mem _ hd)
    by_cases hb : c = ' ' ∨ c = '\t'
    · have hb2 : isBlank c = true := by simpa [isBlank] using hb
      rw [parseCommandLoop_blank c _ _ _ hb, ih hl2, List.splitOnP_cons]
      simp only [hb2, ↓reduceIte, List.modifyHead_cons, List.append_nil]
      have hne := List.splitOnP_ne_nil isBlank l
      cases hs : List.splitOnP isBlank l with
      | nil => exact absurd hs hne
      | cons r rs =>
        cases cur <;> simp [pushArg, List.filter_cons]
    · have hb2 : isBlank c = false := by simpa [isBlank] using hb
      simp only [not_or] at hb
      have hstep : parseCommandLoop (c :: l) ⟨false, false, cur, args⟩ false
          = parseCommandLoop l ⟨false, false, cur ++ [c], args⟩ false := by
        have := parseCommandLoop_unquoted_run [c] l cur args
          (by simpa using ⟨h1, h2, hb.1, hb.2⟩)
        simpa using this
      rw [hstep, ih hl2, List.splitOnP_cons]
      simp only [hb2, Bool.false_eq_true, ↓reduceIte, List.modifyHead_modifyHead]
      congr 2
      cases List.splitOnP isBlank l <;> simp [List.modifyHead]

/-- No piece of a list split at the elements satisfying `p` holds such an element. -/
theorem splitOnP_pieces (p : Char → Bool) (l : List Char) :
    ∀ w ∈ l.splitOnP p, ∀ c ∈ w, p c = false := by
  induction l with
  | nil => intro w hw; simp at hw; simp [hw]
  | cons x xs ih =>
    intro w hw
    rw [List.splitOnP_cons] at hw
    by_cases hx : p x = true
    · simp only [hx, ↓reduceIte, List.mem_cons] at hw
      rcases hw with rfl | hw
      · simp
      · exact ih w hw
    · simp only [hx, Bool.false_eq_true, ↓reduceIte] at hw
      cases hs : List.splitOnP p xs with
      | nil => simp [hs, List.modifyHead] at hw
      | cons r rs =>
        rw [hs] at ih hw
        simp only [List.modifyHead_cons, List.mem_cons] at hw
        rcases hw with rfl | hw
        · intro c hc
          rcases List.mem_cons.1 hc with rfl | hc
          · simpa using hx
          · exact ih r (List.mem_cons_self _ _) c hc
        · exact ih w (List.mem_cons_of_mem _ hw)

/-- On a line without quotes `ParseCommand` returns the runs between blanks. -/
theorem parseCommand_eq_blankRuns (line : Str) (h : ∀ c ∈ line, c ≠ '\'' ∧ c ≠ '"') :
    ParseCommand line = blankRuns line := by
  have := parseCommandLoop_blankRuns line h [] []
  simp only [List.nil_append] at this
  rw [ParseCommand, this, blankRuns]
  congr 1
  cases List.splitOnP isBlank line <;> simp [List.modifyHead]

/-- C14: for every line without single quote, double quote and backslash, `ParseCommand`
returns, in order, exactly the maximal runs of characters other than space and tab; no
returned word is empty and none holds a space or a tab. -/
theorem parseCommand_blankRuns (line : Str)
    (h : ∀ c ∈ line, c ≠ '\'' ∧ c ≠ '"' ∧ c ≠ '\\') :
    ParseCommand line = blankRuns line
      ∧ ∀ w ∈ ParseCommand line, w ≠ [] ∧ ∀ c ∈ w, c ≠ ' ' ∧ c ≠ '\t' := by
  have e : ParseCommand line = blankRuns line :=
    parseCommand_eq_blankRuns line (fun c hc => ⟨(h c hc).1, (h c hc).2.1⟩)
  refine ⟨e, ?_⟩
  intro w hw
  rw [e, blankRuns, List.mem_filter] at hw
  refine ⟨by simpa using hw.2, ?_⟩
  intro c hc
  have := splitOnP_pieces isBlank line w hw.1 c hc
  simpa [isBlank] using this

/-- C14, witness: the line ` ab  cd` followed by a tab has the two words `ab` and `cd`. -/
theorem parseCommand_blankRuns_witness :
    ParseCommand " ab  cd\t".toList = ["ab".toList, "cd".toList]
      ∧ ∀ w ∈ ParseCommand " ab  cd\t".toList, w ≠ [] ∧ ∀ c ∈ w, c ≠ ' ' ∧ c ≠ '\t' :=
  parseCommand_blankRuns " ab  cd\t".toList (by decide)


theorem parseCommandLoop_close_double (rest : List Char) (cur : Str) (args : List Str)
    (h : rest.head? ≠ some '"') :
    parseCommandLoop ('"' :: rest) ⟨false, true, cur, args⟩ false
      = parseCommandLoop rest ⟨false, false, cur, args⟩ false := by
  rw [parseCommandLoop]
  simp [parseCommandStep, h]

/-- Inside double quotes the loop of `ParseCommand` appends the decoding of one unit. -/
theorem parseCommandLoop_dqItem (i : DqItem) (hi : i.ok = true) (rest : List Char)
    (cur : Str) (args : List Str) :
    parseCommandLoop (i.raw ++ rest) ⟨false, true, cur, args⟩ false
      = parseCommandLoop rest ⟨false, true, cur ++ i.decode, args⟩ false := by
  cases i with
  | ordinary c =>
    simp only [DqItem.ok, Bool.and_eq_true, bne_iff_ne, ne_eq] at hi
    exact parseCommandLoop_double_run [c] rest cur args (by simpa using hi)
  | pair c =>
    by_cases h1 : c = '"'
    · subst h1
      simp [DqItem.raw, DqItem.decode, parseCommandLoop, parseCommandStep, CommandState.write]
    · by_cases h2 : c = '\\'
      · subst h2
        simp [DqItem.raw, DqItem.decode, parseCommandLoop, parseCommandStep,
          CommandState.write]
      · have := parseCommandLoop_double_run [c] rest (cur ++ ['\\']) args
          (by simpa using ⟨h1, h2⟩)
        simp only [List.singleton_append, List.append_assoc] at this
        simp only [DqItem.raw, DqItem.decode, h1, h2, ↓reduceIte, List.cons_append,
          List.nil_append]
        rw [parseCommandLoop]
        simp only [parseCommandStep, List.head?_cons, Bool.false_eq_true, ↓reduceIte,
          Char.reduceEq, Bool.not_false, Bool.and_self, Bool.true_and, decide_True,
          Bool.and_true, Bool.false_and, h1, h2, CommandState.write]
        simpa using this

theorem parseCommandLoop_dqItems (items : List DqItem) (h : ∀ i ∈ items, i.ok = true)
    (rest : List Char) : ∀ (cur : Str) (args : List Str),
    parseCommandLoop (dqRaw items ++ rest) ⟨false, true, cur, args⟩ false
      = parseCommandLoop rest ⟨false, true, cur ++ dqDecode items, args⟩ false := by
  induction items with
  | nil => intro cur args; simp [dqRaw, dqDecode]
  | cons i items ih =>
    intro cur args
    rw [dqRaw, List.append_assoc, parseCommandLoop_dqItem i (h i (List.mem_cons_self _ _)),
      ih (fun j hj => h j (List.mem_cons_of_mem _ hj)), dqDecode, List.append_assoc]

theorem dqItem_decode_ne_nil (i : DqItem) : i.decode ≠ [] := by
  cases i with
  | ordinary c => simp [DqItem.decode]
  | pair c => simp only [DqItem.decode]; split_ifs <;> simp

theorem dqItem_raw_head (i : DqItem) (hi : i.ok = true) (rest : List Char) :
    (i.raw ++ rest).head? ≠ some '"' := by
  cases i with
  | ordinary c =>
    simp only [DqItem.ok, Bool.and_eq_true, bne_iff_ne, ne_eq] at hi
    simpa [DqItem.raw] using hi.1
  | pair c => simp [DqItem.raw]

/-- C12: escapes inside double quotes.  For every non-empty body made of ordinary
characters (neither double quote nor backslash) and of backslash pairs,
`ParseCommand('"' ++ body ++ '"')` is the single word `decode(body)`, where `decode` turns
backslash-doublequote into a double quote and backslash-backslash into one backslash and
keeps a backslash followed by any other character as those two characters. -/
theorem parseCommand_double_quoted (items : List DqItem) (hne : items ≠ [])
    (h : ∀ i ∈ items, i.ok = true) :
    ParseCommand (['"'] ++ dqRaw items ++ ['"']) = [dqDecode items] := by
  obtain ⟨i, items, rfl⟩ : ∃ i r, items = i :: r := by
    cases items with
    | nil => exact absurd rfl hne
    | cons i r => exact ⟨i, r, rfl⟩
  have hd : dqDecode (i :: items) ≠ [] := by
    simp [dqDecode, dqItem_decode_ne_nil i]
  have hhead : (dqRaw (i :: items) ++ ['"']).head? ≠ some '"' := by
    rw [dqRaw, List.append_assoc]
    exact dqItem_raw_head i (h i (List.mem_cons_self _ _)) _
  have e : ['"'] ++ dqRaw (i :: items) ++ ['"'] = '"' :: (dqRaw (i :: items) ++ ['"']) := by
    simp
  rw [e, parseCommand_eq _ false false (dqDecode (i :: items)) [], pushArg_of_ne hd]
  · rfl
  · rw [parseCommandLoop_open_double _ _ _ hhead, parseCommandLoop_dqItems _ h,
      parseCommandLoop_close_double _ _ _ (by simp)]
    simp [parseCommandLoop, pushArg]

/-- C12, witness: the body `a\"b\\c\d'e` between double quotes decodes to `a"b\c\d'e`. -/
theorem parseCommand_double_quoted_witness :
    ParseCommand (['"'] ++ dqRaw [.ordinary 'a', .pair '"', .ordinary 'b', .pair '\\',
        .ordinary 'c', .pair 'd', .ordinary '\'', .ordinary 'e'] ++ ['"'])
      = ["a\"b\\c\\d'e".toList] :=
  parseCommand_double_quoted _ (by decide) (by decide)

/-! ## `ParsePipe` : a quoted `|` -/

/-- Outside quotes, a run of bytes that are no quote and no `|` is appended to
`currentPart`. -/
theorem parsePipeLoop_unquoted_run (u rest : List Char) (cur : Str) (parts : List Str)
    (hu : ∀ c ∈ u, c ≠ '\'' ∧ c ≠ '"' ∧ c ≠ '|') :
    parsePipeLoop (u ++ rest) ⟨false, false, cur, parts⟩ false
      = parsePipeLoop rest ⟨false, false, cur ++ u, parts⟩ false := by
  induction u generalizing cur with
  | nil => simp
  | cons c u ih =>
    obtain ⟨h1, h2, h3⟩ := hu c (List.mem_cons_self _ _)
    have hu2 : ∀ d ∈ u, d ≠ '\'' ∧ d ≠ '"' ∧ d ≠ '|' :=
      fun d hd => hu d (List.mem_cons_of_mem _ hd)
    simp [parsePipeLoop, parsePipeStep, PipeState.write, h1, h2, h3, ih _ hu2]

/-- Inside double quotes, a run of bytes other than `"` is appended to `currentPart`. -/
theorem parsePipeLoop_double_run (v rest : List Char) (cur : Str) (parts : List Str)
    (hv : ∀ c ∈ v, c ≠ '"') :
    parsePipeLoop (v ++ rest) ⟨false, true, cur, parts⟩ false
      = parsePipeLoop rest ⟨false, true, cur ++ v, parts⟩ false := by
  induction v generalizing cur with
  | nil => simp
  | cons c v ih =>
    have h1 := hv c (List.mem_cons_self _ _)
    have hv2 : ∀ d ∈ v, d ≠ '"' := fun d hd => hv d (List.mem_cons_of_mem _ hd)
    by_cases h2 : c = '\''
    · subst h2
      simp [parsePipeLoop, parsePipeStep, PipeState.write, ih _ hv2]
    · simp [parsePipeLoop, parsePipeStep, PipeState.write, h1, h2, ih _ hv2]

theorem parsePipeLoop_open_double (rest : List Char) (cur : Str) (parts : List Str) :
    parsePipeLoop ('"' :: rest) ⟨false, false, cur, parts⟩ false
      = parsePipeLoop rest ⟨false, true, cur ++ ['"'], parts⟩ false := by
  rw [parsePipeLoop]
  simp [parsePipeStep, PipeState.write]

theorem parsePipeLoop_close_double (rest : List Char) (cur : Str) (parts : List Str)
    (h : rest.head? ≠ some '"') :
    parsePipeLoop ('"' :: rest) ⟨false, true, cur, parts⟩ false
      = parsePipeLoop rest ⟨false, false, cur ++ ['"'], parts⟩ false := by
  rw [parsePipeLoop]
  simp [parsePipeStep, PipeState.write, h]

theorem parsePipeLoop_cut (rest : List Char) (cur : Str) (parts : List Str) (h : cur ≠ []) :
    parsePipeLoop ('|' :: rest) ⟨false, false, cur, parts⟩ false
      = parsePipeLoop rest ⟨false, false, [], parts ++ [TrimSpace cur]⟩ false := by
  rw [parsePipeLoop]
  simp [parsePipeStep, PipeState.cut, List.length_pos, h]

/-- C11: `ParsePipe` does not split on a `|` inside a double-quoted region.  For all strings
`a`, `c`, `b` without quote characters and without `|`, `b` holding a non-whitespace
character, and every string `q` without double quote and backslash,
`ParsePipe(a ++ '"' ++ q ++ '"' ++ c ++ "|" ++ b)` returns exactly two stages, the trimmed
`a ++ '"' ++ q ++ '"' ++ c` and the trimmed `b`. -/
theorem parsePipe_quoted_bar (a c b q : Str)
    (ha : ∀ x ∈ a, x ≠ '\'' ∧ x ≠ '"' ∧ x ≠ '|')
    (hc : ∀ x ∈ c, x ≠ '\'' ∧ x ≠ '"' ∧ x ≠ '|')
    (hb : ∀ x ∈ b, x ≠ '\'' ∧ x ≠ '"' ∧ x ≠ '|')
    (hbs : ∃ x ∈ b, isSpace x = false)
    (hq : ∀ x ∈ q, x ≠ '"' ∧ x ≠ '\\') :
    ParsePipe (a ++ ['"'] ++ q ++ ['"'] ++ c ++ ['|'] ++ b)
      = [TrimSpace (a ++ ['"'] ++ q ++ ['"'] ++ c), TrimSpace b] := by
  have hbne : b ≠ [] := by
    obtain ⟨x, hx, -⟩ := hbs
    exact List.ne_nil_of_mem hx
  have e : a ++ ['"'] ++ q ++ ['"'] ++ c ++ ['|'] ++ b
      = a ++ ('"' :: (q ++ ('"' :: (c ++ ('|' :: (b ++ [])))))) := by simp
  have hhead : (c ++ ('|' :: (b ++ []))).head? ≠ some '"' := by
    cases c with
    | nil => simp
    | cons x r => simpa using (hc x (List.mem_cons_self _ _)).2.1
  have hfirst : a ++ ['"'] ++ q ++ ['"'] ++ c ≠ [] := by simp
  have hloop : parsePipeLoop (a ++ ['"'] ++ q ++ ['"'] ++ c ++ ['|'] ++ b)
      ⟨false, false, [], []⟩ false
      = ⟨false, false, b, [TrimSpace (a ++ ['"'] ++ q ++ ['"'] ++ c)]⟩ := by
    rw [e, parsePipeLoop_unquoted_run a _ _ _ ha, parsePipeLoop_open_double,
      parsePipeLoop_double_run q _ _ _ (fun x hx => (hq x hx).1),
      parsePipeLoop_close_double _ _ _ hhead, parsePipeLoop_unquoted_run c _ _ _ hc,
      parsePipeLoop_cut _ _ _ (by simp), parsePipeLoop_unquoted_run b _ _ _ hb]
    simp [parsePipeLoop]
  rw [ParsePipe, hloop]
  simp [PipeState.cut, List.length_pos, hbne]

/-- C11, witness: `echo "a|b" | cat` is split into `echo "a|b"` and `cat`. -/
theorem parsePipe_quoted_bar_witness :
    ParsePipe ("echo ".toList ++ ['"'] ++ "a|b".toList ++ ['"'] ++ " ".toList ++ ['|']
        ++ " cat".toList)
      = ["echo \"a|b\"".toList, "cat".toList] :=
  parsePipe_quoted_bar "echo ".toList " ".toList " cat".toList "a|b".toList
    (by decide) (by decide) (by decide) ⟨'c', by decide, by decide⟩ (by decide)

/-! ## `longestCommonPrefix` -/

theorem common_get? {q l : Str} (h : q <+: l) {k : Nat} (hk : k < q.length) :
    l.get? k = q.get? k := by
  obtain ⟨t, rfl⟩ := h
  simp only [List.get?_eq_getElem?]
  exact List.getElem?_append_left hk

theorem take_eq_take_of_get? {l s : Str} {j : Nat}
    (h : ∀ k < j, s.get? k = l.get? k) : l.take j = s.take j := by
  apply List.ext_getElem?
  intro n
  by_cases hn : n < j
  · have := h n hn
    simp only [List.get?_eq_getElem?] at this
    rw [List.getElem?_take_of_lt hn, List.getElem?_take_of_lt hn, this]
  · rw [List.getElem?_take_eq_none (Nat.le_of_not_lt hn),
      List.getElem?_take_eq_none (Nat.le_of_not_lt hn)]

/-- The scan of `longestCommonPrefix` stops at an index `j` up to which all strings agree
with the first one, and which is the end of the range or a place where one differs. -/
theorem lcpScan_spec (first : Str) (others : List Str) : ∀ (remaining i : Nat),
    (∀ s ∈ others, ∀ k < i, s.get? k = first.get? k) →
    ∃ j, lcpScan first others remaining i = first.take j ∧ i ≤ j ∧ j ≤ i + remaining
      ∧ (∀ s ∈ others, ∀ k < j, s.get? k = first.get? k)
      ∧ (j < i + remaining → ∃ s ∈ others, s.get? j ≠ first.get? j) := by
  intro remaining
  induction remaining with
  | zero =>
    intro i h
    exact ⟨i, rfl, le_refl _, le_refl _, h, fun hj => absurd hj (lt_irrefl _)⟩
  | succ n ih =>
    intro i h
    rw [lcpScan]
    by_cases hany : others.any (fun s => decide (s.get? i ≠ first.get? i)) = true
    · rw [if_pos hany]
      refine ⟨i, rfl, le_refl _, by omega, h, fun _ => ?_⟩
      obtain ⟨s, hs, hd⟩ := List.any_eq_true.1 hany
      exact ⟨s, hs, by simpa using hd⟩
    · rw [if_neg hany]
      have hall : ∀ s ∈ others, s.get? i = first.get? i := by
        intro s hs
        by_contra hne
        exact hany (List.any_eq_true.2 ⟨s, hs, by simpa using hne⟩)
      obtain ⟨j, e, h1, h2, h3, h4⟩ := ih (i + 1) (by
        intro s hs k hk
        rcases Nat.lt_succ_iff_lt_or_eq.1 hk with hk | rfl
        · exact h s hs k hk
        · exact hall s hs)
      exact ⟨j, e, by omega, by omega, h3, fun hj => h4 (by omega)⟩

/-- The length computed by the first loop of `longestCommonPrefix` is a lower bound of all
lengths and is the start value or the length of an element. -/
theorem minLen_spec (l : List Str) : ∀ m0 : Nat,
    let m := l.foldl (fun minLen s => if s.length < minLen then s.length else minLen) m0
    m ≤ m0 ∧ (∀ s ∈ l, m ≤ s.length) ∧ (m = m0 ∨ ∃ s ∈ l, m = s.length) := by
  induction l with
  | nil => intro m0; simp
  | cons x xs ih =>
    intro m0
    simp only [List.foldl_cons]
    obtain ⟨h1, h2, h3⟩ := ih (if x.length < m0 then x.length else m0)
    by_cases hx : x.length < m0
    · simp only [hx, ↓reduceIte] at h1 h2 h3 ⊢
      refine ⟨by omega, ?_, ?_⟩
      · intro s hs
        rcases List.mem_cons.1 hs with rfl | hs
        · exact h1
        · exact h2 s hs
      · rcases h3 with h3 | ⟨s, hs, h3⟩
        · exact Or.inr ⟨x, List.mem_cons_self _ _, h3⟩
        · exact Or.inr ⟨s, List.mem_cons_of_mem _ hs, h3⟩
    · simp only [hx, ↓reduceIte] at h1 h2 h3 ⊢
      refine ⟨h1, ?_, ?_⟩
      · intro s hs
        rcases List.mem_cons.1 hs with rfl | hs
        · omega
        · exact h2 s hs
      · rcases h3 with h3 | ⟨s, hs, h3⟩
        · exact Or.inl h3
        · exact Or.inr ⟨s, List.mem_cons_of_mem _ hs, h3⟩

/-- The result of `longestCommonPrefix` on a non-empty list is a common prefix and every
common prefix is a prefix of it. -/
theorem longestCommonPrefix_spec (strs : List Str) (hne : strs ≠ []) :
    (∀ s ∈ strs, longestCommonPrefix strs <+: s)
      ∧ ∀ q : Str, (∀ s ∈ strs, q <+: s) → q <+: longestCommonPrefix strs := by
  match strs, hne with
  | [s], _ =>
    simp only [longestCommonPrefix, List.mem_singleton, forall_eq]
    exact ⟨List.prefix_refl s, fun q hq => hq⟩
  | first :: o :: os, _ =>
    simp only [longestCommonPrefix]
    obtain ⟨m1, m2, m3⟩ := minLen_spec (first :: o :: os) first.length
    generalize hm : (first :: o :: os).foldl
      (fun minLen s => if s.length < minLen then s.length else minLen) first.length = m
      at m1 m2 m3
    obtain ⟨j, e, -, hj, hagree, hstop⟩ := lcpScan_spec first (o :: os) m 0
      (fun s _ k hk => absurd hk (Nat.not_lt_zero k))
    simp only [Nat.zero_add] at hj hstop
    rw [e]
    constructor
    · intro s hs
      rcases List.mem_cons.1 hs with rfl | hs
      · exact List.take_prefix _ _
      · rw [take_eq_take_of_get? (hagree s hs)]
        exact List.take_prefix _ _
    · intro q hq
      have hqf : q <+: first := hq first (List.mem_cons_self _ _)
      rw [List.prefix_take_iff]
      refine ⟨hqf, ?_⟩
      by_contra hlt
      have hjq : j < q.length := by omega
      have hqm : q.length ≤ m := by
        rcases m3 with h | ⟨s, hs, h⟩
        · rw [h]; exact hqf.length_le
        · rw [h]; exact (hq s hs).length_le
      obtain ⟨s, hs, hdiff⟩ := hstop (by omega)
      apply hdiff
      rw [common_get? (hq s (List.mem_cons_of_mem _ hs)) hjq, common_get? hqf hjq]

/-- C17: `longestCommonPrefix` returns the longest common prefix.  For every non-empty list
of strings the result is a prefix of every element (so it is no longer than the shortest
one), and every string that is a prefix of all elements is a prefix of the result. -/
theorem longestCommonPrefix_greatest (strs : List Str) (hne : strs ≠ []) :
    (∀ s ∈ strs, longestCommonPrefix strs <+: s)
      ∧ (∀ s ∈ strs, (longestCommonPrefix strs).length ≤ s.length)
      ∧ ∀ q : Str, (∀ s ∈ strs, q <+: s) → q <+: longestCommonPrefix strs :=
  ⟨(longestCommonPrefix_spec strs hne).1,
    fun s hs => ((longestCommonPrefix_spec strs hne).1 s hs).length_le,
    (longestCommonPrefix_spec strs hne).2⟩

/-- C17, witness: the longest common prefix of `cat`, `car`, `cab` is `ca`, that of `cat`,
`cats` is `cat`. -/
theorem longestCommonPrefix_greatest_witness :
    ((∀ s ∈ ["cat".toList, "car".toList, "cab".toList],
        longestCommonPrefix ["cat".toList, "car".toList, "cab".toList] <+: s)
      ∧ (∀ s ∈ ["cat".toList, "car".toList, "cab".toList],
        (longestCommonPrefix ["cat".toList, "car".toList, "cab".toList]).length ≤ s.length)
      ∧ ∀ q : Str, (∀ s ∈ ["cat".toList, "car".toList, "cab".toList], q <+: s) →
          q <+: longestCommonPrefix ["cat".toList, "car".toList, "cab".toList])
      ∧ longestCommonPrefix ["cat".toList, "car".toList, "cab".toList] = "ca".toList
      ∧ longestCommonPrefix ["cat".toList, "cats".toList] = "cat".toList :=
  ⟨longestCommonPrefix_greatest ["cat".toList, "car".toList, "cab".toList] (by decide),
    by decide, by decide⟩


/-! ## `CustomCompleter.Do` : completion to the common prefix -/

mutual
/-- Every word gathered below a node extends the prefix handed to `collectWords`. -/
theorem prefix_of_mem_collectWords : ∀ (t : Trie) (p x : Str),
    x ∈ collectWords t p → p <+: x
  | .node e ch, p, x, h => by
    rw [collectWords, List.mem_append] at h
    rcases h with h | h
    · by_cases he : e = true
      · simp only [he, ↓reduceIte, List.mem_singleton] at h
        exact h ▸ List.prefix_refl _
      · simp [he] at h
    · exact prefix_of_mem_collectChildren ch p x h
/-- Every word gathered by the loop over the children extends the prefix. -/
theorem prefix_of_mem_collectChildren : ∀ (ch : List (Char × Trie)) (p x : Str),
    x ∈ collectChildren ch p → p <+: x
  | [], _, _, h => by simp [collectChildren] at h
  | (c, t) :: rest, p, x, h => by
    rw [collectChildren, List.mem_append] at h
    rcases h with h | h
    · exact (List.prefix_append p [c]).trans (prefix_of_mem_collectWords t (p ++ [c]) x h)
    · exact prefix_of_mem_collectChildren rest p x h
end

/-- The common prefix that `Do` completes to is taken on bytes and can end inside a rune.
With the words `xé`, `xè` and the line `x`, the bytes of the two words agree on `x` and on
`0xC3`, the first byte of their second rune: `Do` inserts the rune U+FFFD, returns the
length 1 and writes nothing.  With the words `xéa`, `xéb` and the line `x` the insertion is
`é` and the length returned is 2, the number of its bytes. -/
theorem do_completes_on_bytes :
    longestCommonPrefix (["xé".toList, "xè".toList].map utf8) = ['x', Char.ofNat 0xC3]
      ∧ ((CustomCompleter.mk (trieOf ["xé".toList, "xè".toList]) [] false).Do Char.toLower
          "x".toList 1).newLine = [[RuneError]]
      ∧ ((CustomCompleter.mk (trieOf ["xé".toList, "xè".toList]) [] false).Do Char.toLower
          "x".toList 1).length = 1
      ∧ ((CustomCompleter.mk (trieOf ["xé".toList, "xè".toList]) [] false).Do Char.toLower
          "x".toList 1).output = []
      ∧ ((CustomCompleter.mk (trieOf ["xéa".toList, "xéb".toList]) [] false).Do Char.toLower
          "x".toList 1).newLine = ["é".toList]
      ∧ ((CustomCompleter.mk (trieOf ["xéa".toList, "xéb".toList]) [] false).Do Char.toLower
          "x".toList 1).length = 2 := by
  decide
/-! ## `ParseRedirect` : two redirections of one kind -/

theorem kindOf_cases {op : Str} {k : RedirectKind} (h : kindOf op = some k) :
    (op = ['>'] ∧ k = .stdoutTruncate) ∨ (op = ['1', '>'] ∧ k = .stdoutTruncate)
      ∨ (op = ['2', '>'] ∧ k = .stderrTruncate) ∨ (op = ['>', '>'] ∧ k = .stdoutAppend)
      ∨ (op = ['1', '>', '>'] ∧ k = .stdoutAppend)
      ∨ (op = ['2', '>', '>'] ∧ k = .stderrAppend) := by
  unfold kindOf at h
  split_ifs at h with h1 h2 h3 h4
  · cases h; rcases h1 with h1 | h1 <;> simp [h1]
  · cases h; simp [h2]
  · cases h; rcases h3 with h3 | h3 <;> simp [h3]
  · cases h; simp [h4]

theorem pathOf_loop (k : RedirectKind) (words : List Str) :
    pathOf k (ParseRedirect words)
      = (parseRedirectLoop words.length ⟨words, words, [], [], [], []⟩).path k := by
  cases k <;> rfl

/-- At a standalone operator with a following word the loop body stores that word as the
path of the operator's kind. -/
theorem parseRedirectStep_standalone_path (i : Nat) (s : RedirectState) (op : Str)
    (k : RedirectKind) (hk : kindOf op = some k) (hop : s.cmdSlice.getD i [] = op)
    (hi : i + 1 < s.cmdSlice.length) :
    (parseRedirectStep i s).path k = s.cmdSlice.getD (i + 1) []
      ∧ (parseRedirectStep i s).cmdSlice = s.cmdSlice := by
  rcases kindOf_cases hk with ⟨h, rfl⟩ | ⟨h, rfl⟩ | ⟨h, rfl⟩ | ⟨h, rfl⟩ | ⟨h, rfl⟩ | ⟨h, rfl⟩ <;>
    · subst h
      simp only [parseRedirectStep, hop, hi]
      simp [RedirectState.path]

/-- At a glued word `op ++ a` the loop body stores `a` as the path of the kind of `op` and
splices the word out. -/
theorem parseRedirectStep_glued_path (i : Nat) (s : RedirectState) (op a : Str)
    (k : RedirectKind) (hk : kindOf op = some k) (hg : s.cmdSlice.getD i [] = op ++ a)
    (ha : a ≠ []) (ha2 : a.head? ≠ some '>') :
    (parseRedirectStep i s).path k = a
      ∧ (parseRedirectStep i s).cmdSlice = arrayAfterSplice s.cmdSlice i := by
  obtain ⟨c, r, rfl⟩ : ∃ c r, a = c :: r := by
    cases a with
    | nil => exact absurd rfl ha
    | cons c r => exact ⟨c, r, rfl⟩
  have hc : c ≠ '>' := by simpa using ha2
  have hc2 : ('>' == c) = false := by simpa using fun h => hc h.symm
  rcases kindOf_cases hk with ⟨h, rfl⟩ | ⟨h, rfl⟩ | ⟨h, rfl⟩ | ⟨h, rfl⟩ | ⟨h, rfl⟩ | ⟨h, rfl⟩ <;>
    · subst h
      simp only [parseRedirectStep, hg]
      simp only [HasPrefix, TrimPrefix, List.isPrefixOf, List.cons_append, List.nil_append,
        List.cons.injEq, hc, hc2, reduceCtorEq, and_false, false_and, or_self, ↓reduceIte,
        Bool.and_false, Bool.false_and, Bool.and_true, Bool.true_and, Bool.false_eq_true,
        Char.reduceBEq, Char.reduceEq, beq_self_eq_true, RedirectState.splice, List.drop,
        List.length_cons, List.length_nil, and_true, true_and, RedirectState.path]
      rfl

/-- The leftmost redirection token, when it is a standalone operator followed by a plain
word, decides the path of its kind, whatever follows. -/
theorem parseRedirect_leftmost_standalone (args rest : List Str) (op a : Str)
    (k : RedirectKind) (hargs : NoRedirect args) (hk : kindOf op = some k)
    (ha : isRedirectToken a = false) :
    pathOf k (ParseRedirect (args ++ op :: a :: rest)) = a := by
  have elen : (args ++ op :: a :: rest).length = (args.length + 2) + rest.length := by
    simp; omega
  obtain ⟨s2, e1, e2, e3⟩ := parseRedirectLoop_upper (args.length + 2) rest.length
    ⟨args ++ op :: a :: rest, args ++ op :: a :: rest, [], [], [], []⟩ (by simp; omega)
  simp only at e2 e3
  have hop : s2.cmdSlice.getD args.length [] = op := by
    rw [getD_of_take_eq e2 (by omega), List.getD_append_right _ _ _ _ (le_refl _)]
    simp
  have hnext : s2.cmdSlice.getD (args.length + 1) [] = a := by
    rw [getD_of_take_eq e2 (by omega),
      List.getD_append_right _ _ _ _ (Nat.le_add_right _ _)]
    simp
  have hlt : args.length + 1 < s2.cmdSlice.length := by
    rw [e3]
    simp only [List.length_append, List.length_cons]
    omega
  obtain ⟨f1, f2⟩ := parseRedirectStep_standalone_path args.length s2 op k hk hop hlt
  have hlow : parseRedirectLoop args.length (parseRedirectStep args.length s2)
      = parseRedirectStep args.length s2 := by
    apply parseRedirectLoop_skip_all
    intro j hj
    rw [f2, getD_of_take_eq e2 (by omega)]
    exact not_token_getD_left _ hargs hj
  rw [pathOf_loop, elen, e1]
  show (parseRedirectLoop (args.length + 1) (parseRedirectStep (args.length + 1) s2)).path k
    = a
  rw [parseRedirectStep_of_not_token _ _ (by rw [hnext]; exact ha)]
  show (parseRedirectLoop args.length (parseRedirectStep args.length s2)).path k = a
  rw [hlow, f1, hnext]

/-- The leftmost redirection token, when it is a glued word, decides the path of its kind,
whatever follows. -/
theorem parseRedirect_leftmost_glued (args rest : List Str) (op a : Str)
    (k : RedirectKind) (hargs : NoRedirect args) (hk : kindOf op = some k)
    (ha : a ≠ []) (ha2 : a.head? ≠ some '>') :
    pathOf k (ParseRedirect (args ++ (op ++ a) :: rest)) = a := by
  have elen : (args ++ (op ++ a) :: rest).length = (args.length + 1) + rest.length := by
    simp; omega
  obtain ⟨s2, e1, e2, e3⟩ := parseRedirectLoop_upper (args.length + 1) rest.length
    ⟨args ++ (op ++ a) :: rest, args ++ (op ++ a) :: rest, [], [], [], []⟩ (by simp; omega)
  simp only at e2 e3
  have hg : s2.cmdSlice.getD args.length [] = op ++ a := by
    rw [getD_of_take_eq e2 (by omega), List.getD_append_right _ _ _ _ (le_refl _)]
    simp
  have hlt : args.length < s2.cmdSlice.length := by
    rw [e3]
    simp only [List.length_append, List.length_cons]
    omega
  obtain ⟨f1, f2⟩ := parseRedirectStep_glued_path args.length s2 op a k hk hg ha ha2
  have hlow : parseRedirectLoop args.length (parseRedirectStep args.length s2)
      = parseRedirectStep args.length s2 := by
    apply parseRedirectLoop_skip_all
    intro j hj
    have h1 : (arrayAfterSplice s2.cmdSlice args.length).take (args.length + 1 - 1)
        = s2.cmdSlice.take (args.length + 1 - 1) := arrayAfterSplice_take _ _ hlt
    have h2 : (s2.cmdSlice).take args.length
        = (args ++ (op ++ a) :: rest).take args.length := by
      have := congrArg (List.take args.length) e2
      simpa [List.take_take] using this
    rw [f2, getD_of_take_eq (h1.trans h2) hj]
    exact not_token_getD_left _ hargs hj
  rw [pathOf_loop, elen, e1]
  show (parseRedirectLoop args.length (parseRedirectStep args.length s2)).path k = a
  rw [hlow, f1]


/-- C15: when two redirections of one kind appear, `ParseRedirect` keeps the one nearer the
start of the line.  For every word list `args` without redirection tokens, all plain targets
`a` and `b`, and operators `opX`, `opY` of one kind `k`: with `X` the standalone pair
`[opX, a]` or the glued token `opX ++ a` (`a` non-empty, as a glued token has a path) and
`Y` the pair `[opY, b]` or the glued token `opY ++ b`, `ParseRedirect(args ++ X ++ Y)`
returns `a` as the path of kind `k`. -/
theorem parseRedirect_same_kind (args X Y : List Str) (opX opY a b : Str) (k : RedirectKind)
    (hargs : NoRedirect args) (ha : isRedirectToken a = false)
    (_hb : isRedirectToken b = false) (hkX : kindOf opX = some k)
    (_hkY : kindOf opY = some k) (hX : X = [opX, a] ∨ (X = [opX ++ a] ∧ a ≠ []))
    (_hY : Y = [opY, b] ∨ Y = [opY ++ b]) :
    pathOf k (ParseRedirect (args ++ X ++ Y)) = a := by
  rcases hX with rfl | ⟨rfl, hne⟩
  · have e : args ++ [opX, a] ++ Y = args ++ opX :: a :: Y := by simp
    rw [e]
    exact parseRedirect_leftmost_standalone args Y opX a k hargs hkX ha
  · have e : args ++ [opX ++ a] ++ Y = args ++ (opX ++ a) :: Y := by simp
    have ha2 : a.head? ≠ some '>' := by
      obtain ⟨-, -, -, -, -, -, -, -, -, h, -, -⟩ := not_token_cases ha
      cases a with
      | nil => simp
      | cons c r =>
        simp only [HasPrefix, List.isPrefixOf, Bool.and_true, beq_eq_false_iff_ne, ne_eq] at h
        simpa using fun hc => h hc.symm
    rw [e]
    exact parseRedirect_leftmost_glued args Y opX a k hargs hkX hne ha2

/-- C15, witness: in `[cmd, >a, 1>, b]` the standard-output path is `a`. -/
theorem parseRedirect_same_kind_witness :
    pathOf .stdoutTruncate (ParseRedirect (["cmd".toList] ++ [['>'] ++ "a".toList]
      ++ [['1', '>'], "b".toList])) = "a".toList :=
  parseRedirect_same_kind ["cmd".toList] [['>'] ++ "a".toList] [['1', '>'], "b".toList]
    ['>'] ['1', '>'] "a".toList "b".toList .stdoutTruncate (by decide) (by decide)
    (by decide) (by decide) (by decide) (Or.inr ⟨rfl, by decide⟩) (Or.inl rfl)

/-! ## `runEchoBuiltin` against `ParseCommand` on plain input -/

theorem join_nil (sep : Str) : Join [] sep = [] := rfl

theorem join_singleton (w sep : Str) : Join [w] sep = w := by
  simp [Join, List.intercalate, List.intersperse]

theorem join_cons_cons (w v : Str) (ws : List Str) (sep : Str) :
    Join (w :: v :: ws) sep = w ++ sep ++ Join (v :: ws) sep := by
  simp [Join, List.intercalate, List.intersperse]

theorem join_cons_head (c : Char) (w : Str) (ws : List Str) (sep : Str) :
    Join ((c :: w) :: ws) sep = c :: Join (w :: ws) sep := by
  cases ws with
  | nil => simp [join_singleton]
  | cons v vs => simp [join_cons_cons]

theorem blankRuns_cons_blank (c : Char) (l : Str) (hc : isBlank c = true) :
    blankRuns (c :: l) = blankRuns l := by
  simp [blankRuns, List.splitOnP_cons, hc]

/-- The runs of a line that begins with a non-blank, from the split of what follows. -/
theorem blankRuns_cons_nonblank (c : Char) (l : Str) (hc : isBlank c = false)
    (h : Str) (t : List Str) (hs : l.splitOnP isBlank = h :: t) :
    blankRuns (c :: l) = (c :: h) :: t.filter (fun w => decide (w ≠ []))
      ∧ blankRuns l = (if h = [] then [] else [h]) ++ t.filter (fun w => decide (w ≠ [])) := by
  constructor
  · simp [blankRuns, List.splitOnP_cons, hc, hs]
  · by_cases hh : h = [] <;> simp [blankRuns, hs, hh]

theorem splitOnP_head_nil_iff (l : Str) (h : Str) (t : List Str)
    (hs : l.splitOnP isBlank = h :: t) : h = [] ↔ (l = [] ∨ startsBlank l = true) := by
  cases l with
  | nil =>
    simp only [List.splitOnP_nil, List.cons.injEq] at hs
    simp [hs.1.symm]
  | cons d l2 =>
    rw [List.splitOnP_cons] at hs
    by_cases hd : isBlank d = true
    · simp only [hd, ↓reduceIte, List.cons.injEq] at hs
      simp [startsBlank, hd, hs.1.symm]
    · simp only [hd, Bool.false_eq_true, ↓reduceIte] at hs
      cases hs2 : List.splitOnP isBlank l2 with
      | nil => exact absurd hs2 (List.splitOnP_ne_nil _ _)
      | cons h2 t2 =>
        rw [hs2] at hs
        simp only [List.modifyHead_cons, List.cons.injEq] at hs
        simp [startsBlank, hd, hs.1.symm]

theorem blank_of_blankRuns_nil (l : Str) (h : blankRuns l = []) :
    ∀ x ∈ l, isBlank x = true := by
  induction l with
  | nil => intro x hx; simp at hx
  | cons c l ih =>
    by_cases hc : isBlank c = true
    · rw [blankRuns_cons_blank c l hc] at h
      intro x hx
      rcases List.mem_cons.1 hx with rfl | hx
      · exact hc
      · exact ih h x hx
    · simp only [Bool.not_eq_true] at hc
      cases hs : List.splitOnP isBlank l with
      | nil => exact absurd hs (List.splitOnP_ne_nil _ _)
      | cons h2 t2 =>
        rw [(blankRuns_cons_nonblank c l hc h2 t2 hs).1] at h
        simp at h

theorem endsBlank_cons (c : Char) (l : Str) :
    endsBlank (c :: l) = if l = [] then isBlank c else endsBlank l := by
  cases l with
  | nil => simp [endsBlank]
  | cons d l2 => simp [endsBlank, List.getLast?_cons_cons]

theorem endsBlank_of_all_blank (l : Str) (hne : l ≠ []) (h : ∀ x ∈ l, isBlank x = true) :
    endsBlank l = true := by
  unfold endsBlank
  cases hl : l.getLast? with
  | none => simp [List.getLast?_eq_none_iff] at hl; exact absurd hl hne
  | some x => exact h x (List.mem_of_getLast?_eq_some hl)

theorem echoTail_cons_blank (c : Char) (l : Str) (hc : isBlank c = true) :
    echoTail (c :: l) = echoTail l := by
  unfold echoTail
  rw [blankRuns_cons_blank c l hc, endsBlank_cons]
  by_cases hl : l = []
  · subst hl
    simp [blankRuns]
  · simp [hl]

theorem echoTail_cons_nonblank (c : Char) (l : Str) (hc : isBlank c = false) :
    echoTail (c :: l) = c :: ((if startsBlank l then [' '] else []) ++ echoTail l) := by
  cases hs : List.splitOnP isBlank l with
  | nil => exact absurd hs (List.splitOnP_ne_nil _ _)
  | cons h t =>
    obtain ⟨e1, e2⟩ := blankRuns_cons_nonblank c l hc h t hs
    have hiff := splitOnP_head_nil_iff l h t hs
    generalize t.filter (fun w => decide (w ≠ [])) = T at e1 e2
    unfold echoTail
    rw [e1, endsBlank_cons]
    by_cases hh : h = []
    · rcases hiff.1 hh with hl | hl
      · subst hl
        simp only [List.splitOnP_nil, List.cons.injEq] at hs
        obtain ⟨rfl, rfl⟩ := hs
        have hT : T = [] := by simpa [blankRuns] using e2.symm
        subst hT
        simp [hc, join_singleton, blankRuns, startsBlank, endsBlank, join_nil]
      · have hne : l ≠ [] := by
          rintro rfl
          simp [startsBlank] at hl
        simp only [hh, ↓reduceIte, List.nil_append] at e2
        rw [e2]
        subst hh
        cases T with
        | nil =>
          have hall := blank_of_blankRuns_nil l e2
          have hend := endsBlank_of_all_blank l hne hall
          simp [hl, hne, hend, join_singleton, join_nil]
        | cons v vs => simp [hl, hne, join_cons_cons]
    · have hne : l ≠ [] := fun hl => hh (hiff.2 (Or.inl hl))
      have hsb : startsBlank l = false := by
        by_contra hsb
        exact hh (hiff.2 (Or.inr (by simpa using hsb)))
      simp only [hh, ↓reduceIte, List.singleton_append] at e2
      rw [e2]
      simp [hne, hsb, join_cons_head]

/-- On bytes that are no quote and no backslash, the loop of `runEchoBuiltin` writes one
space for a blank run in front and then the words joined by single spaces. -/
theorem runEchoLoop_plain (l : Str) (hl : ∀ c ∈ l, c ≠ '\'' ∧ c ≠ '"' ∧ c ≠ '\\') :
    ∀ (b : Bool) (r : Str),
      (runEchoLoop l ⟨false, false, b, r⟩ .none).result
        = r ++ (if b = false ∧ startsBlank l = true then [' '] else []) ++ echoTail l := by
  induction l with
  | nil => intro b r; simp [runEchoLoop, startsBlank, echoTail, blankRuns, join_nil]
  | cons c l ih =>
    intro b r
    obtain ⟨h1, h2, h3⟩ := hl c (List.mem_cons_self _ _)
    have hl2 : ∀ d ∈ l, d ≠ '\'' ∧ d ≠ '"' ∧ d ≠ '\\' :=
      fun d hd => hl d (List.mem_cons_of_mem _ hd)
    by_cases hb : isBlank c = true
    · have hb2 : c = ' ' ∨ c = '\t' := by simpa [isBlank] using hb
      rw [echoTail_cons_blank c l hb]
      cases b with
      | false =>
        have hstep : runEchoLoop (c :: l) ⟨false, false, false, r⟩ .none
            = runEchoLoop l ⟨false, false, true, r ++ [' ']⟩ .none := by
          rw [runEchoLoop]
          simp [runEchoStep, h1, h2, h3, hb2, EchoState.write]
        rw [hstep, ih hl2]
        simp [startsBlank, hb]
      | true =>
        have hstep : runEchoLoop (c :: l) ⟨false, false, true, r⟩ .none
            = runEchoLoop l ⟨false, false, true, r⟩ .none := by
          rw [runEchoLoop]
          simp [runEchoStep, h1, h2, h3, hb2]
        rw [hstep, ih hl2]
        simp
    · have hb2 : ¬ (c = ' ' ∨ c = '\t') := by simpa [isBlank] using hb
      simp only [Bool.not_eq_true] at hb
      have hstep : runEchoLoop (c :: l) ⟨false, false, b, r⟩ .none
          = runEchoLoop l ⟨false, false, false, r ++ [c]⟩ .none := by
        rw [runEchoLoop]
        simp [runEchoStep, h1, h2, h3, hb2, EchoState.write]
      rw [hstep, ih hl2, echoTail_cons_nonblank c l hb]
      simp [startsBlank, hb]

theorem parseCommand_echo_plain (rest : Str) (h : ∀ c ∈ rest, c ≠ '\'' ∧ c ≠ '"' ∧ c ≠ '\\') :
    ParseCommand (['e', 'c', 'h', 'o', ' '] ++ rest) = ['e', 'c', 'h', 'o'] :: blankRuns rest := by
  rw [parseCommand_eq_blankRuns]
  · have e : ['e', 'c', 'h', 'o', ' '] ++ rest = ['e', 'c', 'h', 'o'] ++ ' ' :: rest := rfl
    rw [blankRuns, e, List.splitOnP_first isBlank ['e', 'c', 'h', 'o'] (by decide) ' '
      (by decide) rest]
    simp [blankRuns]
  · intro c hc
    rcases List.mem_append.1 hc with hc | hc
    · have : ∀ d ∈ (['e', 'c', 'h', 'o', ' '] : Str), d ≠ '\'' ∧ d ≠ '"' := by decide
      exact this c hc
    · exact ⟨(h c hc).1, (h c hc).2.1⟩

/-- C18 (amended): on plain input the builtin echo writes the words of the tokenizer joined
by single spaces, but keeps one space for a blank run at either end.  For every raw line
`"echo " ++ rest`, `rest` without single quote, double quote and backslash,
`runEchoBuiltin` writes the words that `ParseCommand` returns after the command name, joined
by single spaces, preceded by one space when `rest` begins with a space or tab and followed
by one space when `rest` ends with a space or tab after a word, and then one newline unless
that text already ends in a newline.  When `rest` neither begins nor ends with a space or
tab the text is exactly the joined words. -/
theorem runEchoBuiltin_plain (rest : Str) (h : ∀ c ∈ rest, c ≠ '\'' ∧ c ≠ '"' ∧ c ≠ '\\') :
    runEchoBuiltin (['e', 'c', 'h', 'o', ' '] ++ rest)
        = (if (echoText rest ((ParseCommand (['e', 'c', 'h', 'o', ' '] ++ rest)).drop 1)).getLast?
              = some '\n'
            then echoText rest ((ParseCommand (['e', 'c', 'h', 'o', ' '] ++ rest)).drop 1)
            else echoText rest ((ParseCommand (['e', 'c', 'h', 'o', ' '] ++ rest)).drop 1)
              ++ ['\n'])
      ∧ (startsBlank rest = false → endsBlank rest = false →
          echoText rest ((ParseCommand (['e', 'c', 'h', 'o', ' '] ++ rest)).drop 1)
            = Join ((ParseCommand (['e', 'c', 'h', 'o', ' '] ++ rest)).drop 1) [' ']) := by
  rw [parseCommand_echo_plain rest h]
  simp only [List.drop_succ_cons, List.drop_zero]
  constructor
  · have hloop := runEchoLoop_plain rest h false []
    have hout : (runEchoLoop rest ⟨false, false, false, []⟩ .none).result
        = echoText rest (blankRuns rest) := by
      rw [hloop]
      simp [echoText, echoTail]
    have hpre : HasPrefix (['e', 'c', 'h', 'o', ' '] ++ rest) ['e', 'c', 'h', 'o', ' ']
        = true := by
      simp [HasPrefix, List.isPrefixOf]
    have hdrop : (['e', 'c', 'h', 'o', ' '] ++ rest).drop
        (['e', 'c', 'h', 'o', ' '] : Str).length = rest := by
      simp
    simp only [runEchoBuiltin, hpre, hdrop, hout, Bool.not_true, Bool.false_eq_true,
      ↓reduceIte]
  · intro h1 h2
    simp [echoText, h1, h2]

/-- C18 (amended), witness: for `echo  a b` followed by a tab the output is ` a b ` and a
newline. -/
theorem runEchoBuiltin_plain_witness :
    runEchoBuiltin (['e', 'c', 'h', 'o', ' '] ++ " a b\t".toList) = " a b \n".toList :=
  (runEchoBuiltin_plain " a b\t".toList (by decide)).1

/-- C18, counterexample: for the raw line `echo  a`, with two spaces, `ParseCommand` returns
the words `echo` and `a`, and `runEchoBuiltin` writes a space, `a` and a newline, not `a` and
a newline. -/
theorem runEchoBuiltin_plain_counterexample :
    ParseCommand ("echo ".toList ++ " a".toList) = ["echo".toList, "a".toList]
      ∧ runEchoBuiltin ("echo ".toList ++ " a".toList) = " a\n".toList
      ∧ runEchoBuiltin ("echo ".toList ++ " a".toList)
          ≠ Join ((ParseCommand ("echo ".toList ++ " a".toList)).drop 1) [' '] ++ ['\n'] := by
  decide

end GoShell
